import Mathlib

set_option maxRecDepth 8000

/-!
Verification of the supplier-to-canonical-ingredient matching engine.

The development shallowly embeds the three engine implementations of the
repository:

* SrcM : src/matcher.py (MatchingEngine and its helper functions)
* AppM : app/preprocessing.py + app/matcher.py (TextPreprocessor,
  BlockingIndex, FuzzyMatcher)
* PdM : app/processing.py + app/matching.py (normalize, Matcher)

Modelling conventions, stated once here:

* Python floats are modelled as exact rationals; every arithmetic
  operation appearing in the engines (ratios of small integers, the fixed
  60/40 blend, max, division by 100) is exact in both models, so no claim
  below depends on floating-point rounding.
* math.log and math.sqrt are passed as explicit function parameters; every
  theorem that touches them assumes only log 1 = 0, the single point at
  which the engines' control flow ever depends on a log value.
* difflib.SequenceMatcher(None, a, b).ratio() is modelled as
  2*M/(len(a)+len(b)) with M the longest-common-subsequence length.
  difflib computes M as the size of a greedily chosen common subsequence;
  all facts used below (the ratio of a string with itself is 1, the ratio
  lies in [0,1], the ratio is 1 only for equal strings, the ratio is 0 for
  strings sharing no character) hold for both.
* Python set and dict iteration order is not part of the language
  definition; wherever the source iterates over a set, the embedding takes
  an enumeration function as a parameter, constrained only to enumerate
  each finite set without duplicates.
* str.lower, the regex classes for word and whitespace characters, and the
  NFD accent folding are modelled on their ASCII behaviour; the concrete
  strings evaluated below are all ASCII, and the universally quantified
  theorems do not depend on which characters count as word characters.
-/

/-! ## Python string primitives -/

def isPyWS (c : Char) : Bool :=
  c == ' ' || c == '\t' || c == '\n' || c == '\r' || c == '\x0b' || c == '\x0c'

def isAsciiDigitC (c : Char) : Bool := '0' ≤ c && c ≤ '9'

def isLowerAlnum (c : Char) : Bool := ('a' ≤ c && c ≤ 'z') || isAsciiDigitC c

def isWordCharC (c : Char) : Bool :=
  ('a' ≤ c && c ≤ 'z') || ('A' ≤ c && c ≤ 'Z') || isAsciiDigitC c || c == '_'

def pyLowerL (l : List Char) : List Char := l.map Char.toLower

/-- Python str.strip(): remove leading and trailing whitespace. -/
def pyStripL (l : List Char) : List Char :=
  ((l.dropWhile isPyWS).reverse.dropWhile isPyWS).reverse

def pyStrip (s : String) : String := String.mk (pyStripL s.data)

/-- One step of whitespace-run collapsing, consumed by a right fold. -/
def wsCollapseStep (c : Char) (acc : List Char) : List Char :=
  if isPyWS c then
    match acc with
    | ' ' :: _ => acc
    | _ => ' ' :: acc
  else c :: acc

/-- re.sub of every maximal whitespace run by a single space (no
stripping). -/
def wsCollapseL (l : List Char) : List Char := l.foldr wsCollapseStep []

/-- One step of whitespace splitting, consumed by a right fold over the
characters; the head group collects the current token. -/
def wsSplitStep (c : Char) (acc : List (List Char)) : List (List Char) :=
  if isPyWS c then [] :: acc
  else
    match acc with
    | [] => [[c]]
    | t :: ts => (c :: t) :: ts

/-- Python str.split() with no argument: split on whitespace runs,
dropping empty pieces. -/
def wsSplitL (l : List Char) : List (List Char) :=
  (l.foldr wsSplitStep [[]]).filter (fun t => !t.isEmpty)

def pySplit (s : String) : List String := (wsSplitL s.data).map String.mk

/-- ' '.join on token lists. -/
def joinTokL : List (List Char) → List Char
  | [] => []
  | [t] => t
  | t :: u :: ts => t ++ ' ' :: joinTokL (u :: ts)

def joinSp (ts : List String) : String := String.mk (joinTokL (ts.map String.data))

/-- Python str.replace: replace every non-overlapping occurrence, scanning
left to right.  The fuel argument is instantiated with the length of the
scanned list, which suffices because every step consumes at least one
character. -/
def replFuel (pat rep : List Char) : Nat → List Char → List Char
  | _, [] => []
  | 0, l => l
  | fuel + 1, c :: cs =>
    if !pat.isEmpty && pat.isPrefixOf (c :: cs) then
      rep ++ replFuel pat rep fuel ((c :: cs).drop pat.length)
    else c :: replFuel pat rep fuel cs

def pyReplace (s pat rep : String) : String :=
  String.mk (replFuel pat.data rep.data s.data.length s.data)

/-- Python substring containment (the `in` operator on str). -/
def containsSubL (pat : List Char) : List Char → Bool
  | [] => pat.isEmpty
  | c :: cs => pat.isPrefixOf (c :: cs) || containsSubL pat cs

/-! ## SequenceMatcher ratio model -/

/-- Longest common subsequence length, fuelled for kernel reduction; fuel
at least the sum of the two lengths is sufficient. -/
def lcsF : Nat → List Char → List Char → Nat
  | 0, _, _ => 0
  | _ + 1, [], _ => 0
  | _ + 1, _ :: _, [] => 0
  | fuel + 1, a :: as, b :: bs =>
    if a = b then lcsF fuel as bs + 1
    else max (lcsF fuel (a :: as) bs) (lcsF fuel as (b :: bs))

def lcsL (a b : List Char) : Nat := lcsF (a.length + b.length) a b

/-- difflib.SequenceMatcher(None, s, t).ratio(), with the matched-element
count modelled as the longest common subsequence (see the header note). -/
def smRatioVal (s t : String) : ℚ :=
  if s.length + t.length = 0 then 1
  else (2 * lcsL s.data t.data : ℚ) / (s.length + t.length)

/-! ## Rounding, lexicographic keys, Python max -/

/-- round(x, 4).  Python rounds half to even while round here rounds half
away from the floor; the two agree except at exact ties, and no claim
below depends on the direction of a tie. -/
def round4 (q : ℚ) : ℚ := (round (q * 10000) : ℤ) / 10000

def lexLtQZ (a b : ℚ × ℤ) : Prop := a.1 < b.1 ∨ (a.1 = b.1 ∧ a.2 < b.2)

instance (a b : ℚ × ℤ) : Decidable (lexLtQZ a b) := by
  unfold lexLtQZ; infer_instance

def lexLeQZ (a b : ℚ × ℤ) : Prop := a.1 < b.1 ∨ (a.1 = b.1 ∧ a.2 ≤ b.2)

/-- Python max(xs, key) on a nonempty list x :: xs: keep the first element
whose key is maximal (a later element replaces the current best only when
its key is strictly greater). -/
def pyMaxFold {α : Type} (key : α → ℚ × ℤ) (x : α) (xs : List α) : α :=
  xs.foldl (fun b a => if lexLtQZ (key b) (key a) then a else b) x

/-! ## Set-enumeration parameters -/

/-- A possible iteration order of a Python set: an enumeration of each
finite set without duplicates.  The language does not fix which one the
runtime uses. -/
def ValidEnum {α : Type} [DecidableEq α] (f : Finset α → List α) : Prop :=
  ∀ s : Finset α, (f s).Nodup ∧ ∀ x, x ∈ f s ↔ x ∈ s

/-- A kernel-reducible decision procedure for the order on strings (the
builtin one goes through String.ltb, whose well-founded recursion does not
reduce definitionally). -/
def strLeDec : DecidableRel ((· ≤ ·) : String → String → Prop) :=
  fun a b => decidable_of_iff (a.toList ≤ b.toList) String.le_iff_toList_le.symm

/-- The ascending enumeration of a finite set, computed by insertion sort
(with an explicitly supplied decision procedure) so that it reduces inside
the kernel. -/
def enumOfD {α : Type} [LinearOrder α]
    (dec : DecidableRel ((· ≤ ·) : α → α → Prop)) (s : Finset α) : List α :=
  Quot.liftOn s.val (fun l => @List.insertionSort α (· ≤ ·) dec l) (fun a b h =>
    List.eq_of_perm_of_sorted
      ((List.perm_insertionSort _ a).trans (h.trans (List.perm_insertionSort _ b).symm))
      (List.sorted_insertionSort _ a) (List.sorted_insertionSort _ b))

def sortEnum (s : Finset ℕ) : List ℕ := enumOfD inferInstance s

def sortEnumRev (s : Finset ℕ) : List ℕ := (sortEnum s).reverse

def enumOf (s : Finset String) : List String := enumOfD strLeDec s

def sortEnumStr (s : Finset String) : List String := enumOf s

/-! ## SrcM: embedding of src/matcher.py -/

namespace SrcM

/-- ABBREVIATIONS table, in dict insertion order. -/
def ABBREVIATIONS : List (String × String) :=
  [("unslt", "unsalted"), ("gralic", "garlic"), ("jeera", "cumin"),
   ("cumin", "cumin"), ("ml", "milliliter"), ("l", "liter"),
   ("kg", "kilogram"), ("g", "gram"), ("oz", "ounce"), ("lb", "pound")]

/-- STOP_WORDS of src/matcher.py. -/
def STOP_WORDS : List String :=
  ["a", "an", "and", "the", "is", "are", "of", "to", "in", "for",
   "pack", "pck", "box", "tin", "can", "jar", "bag", "bottle",
   "red", "white", "green", "brown", "whole", "ground", "fresh",
   "dried", "frozen", "organic", "extra", "virgin", "full", "low",
   "high", "long", "short", "grain", "peeled", "sliced", "diced"]

structure Ingredient where
  ingredient_id : ℤ
  name : String
  normalized_name : String
  tokens : Finset String
deriving DecidableEq

structure SupplierItem where
  item_id : String
  raw_name : String
  normalized_name : String
  tokens : Finset String
deriving DecidableEq

structure MatchResult where
  item_id : String
  ingredient_id : Option ℤ
  confidence : ℚ
deriving DecidableEq

/-- normalize_text: lowercase and strip, replace every character outside
[a-z0-9\s] by a space, then collapse whitespace runs. -/
def normalize_text (s : String) : String :=
  String.mk (wsCollapseL
    ((pyStripL (pyLowerL s.data)).map
      (fun c => if isLowerAlnum c || isPyWS c then c else ' ')))

/-- Unit alternatives of the size regex of src/matcher.py, in the order the
alternation lists them. -/
def srcUnits : List (List Char) :=
  ["kg".data, "g".data, "ml".data, "l".data, "oz".data, "lb".data,
   "pack".data, "box".data, "pck".data, "tin".data, "can".data,
   "jar".data, "bag".data, "bottle".data]

/-- Try the unit alternatives in order at the head of cs; an alternative
matches when it is a prefix and is followed by a word boundary.  Returns
the matched length. -/
def unitAltAt (units : List (List Char)) (cs : List Char) : Option Nat :=
  units.findSome? (fun u =>
    if u.isPrefixOf cs then
      match cs.drop u.length with
      | [] => some u.length
      | d :: _ => if isWordCharC d then none else some u.length
    else none)

/-- Match the pattern \d+\s*(unit)\b at the head of cs, returning the
total matched length.  Greedy matching of \d+ and \s* is exact here
because no unit starts with a digit or a whitespace character. -/
def srcSizeAt (cs : List Char) : Option Nat :=
  let ds := cs.takeWhile isAsciiDigitC
  if ds.isEmpty then none
  else
    let rest1 := cs.drop ds.length
    let ws := rest1.takeWhile isPyWS
    let rest2 := rest1.drop ws.length
    (unitAltAt srcUnits rest2).map (fun n => ds.length + ws.length + n)

/-- Scanner for re.sub of the size pattern by the empty string. -/
def srcSizeScan : Nat → List Char → List Char
  | _, [] => []
  | 0, l => l
  | fuel + 1, c :: cs =>
    match srcSizeAt (c :: cs) with
    | some n => srcSizeScan fuel ((c :: cs).drop n)
    | none => c :: srcSizeScan fuel cs

/-- remove_size_info: delete size fragments, then collapse whitespace and
strip. -/
def remove_size_info (s : String) : String :=
  String.mk (pyStripL (wsCollapseL (srcSizeScan s.data.length s.data)))

def lookupAbbrev (t : String) : String :=
  ((ABBREVIATIONS.find? (fun kv => kv.1 = t)).map (fun kv => kv.2)).getD t

/-- expand_abbreviations: map every whitespace token through the
ABBREVIATIONS table and re-join with single spaces. -/
def expand_abbreviations (s : String) : String :=
  joinSp ((pySplit s).map lookupAbbrev)

/-- preprocess_text: the full pipeline, returning the normalized text and
its token set. -/
def preprocess_text (s : String) : String × Finset String :=
  let t := expand_abbreviations (remove_size_info (normalize_text s))
  (t, (pySplit t).toFinset)

/-- An Ingredient as load_master_ingredients builds it from a CSV row. -/
def mkIngredient (i : ℤ) (name : String) : Ingredient :=
  ⟨i, name, (preprocess_text name).1, (preprocess_text name).2⟩

/-- A SupplierItem as load_supplier_items builds it from a CSV row. -/
def mkSupplierItem (iid : String) (raw : String) : SupplierItem :=
  ⟨iid, raw, (preprocess_text raw).1, (preprocess_text raw).2⟩

/-- Number of corpus texts whose stop-word-filtered token set contains the
token (the doc_freqs dict of build_tfidf_vectors). -/
def docFreq (texts : List String) (stop : List String) (tok : String) : ℕ :=
  (texts.filter (fun t => tok ∈ (pySplit t).filter (fun u => u ∉ stop))).length

/-- doc_freqs.get(token, 1). -/
def docFreqOr1 (texts : List String) (stop : List String) (tok : String) : ℕ :=
  if docFreq texts stop tok = 0 then 1 else docFreq texts stop tok

/-- The TF-IDF vector build_tfidf_vectors assigns to one text of the
corpus: an association list from each non-stop token (in first-occurrence
order, as dict insertion order gives) to tf * log(num_docs/df). -/
def vecFor (lg : ℚ → ℚ) (texts : List String) (stop : List String)
    (text : String) : List (String × ℚ) :=
  let toks := pySplit text
  ((toks.filter (fun t => t ∉ stop)).dedup).map (fun k =>
    (k, ((toks.count k : ℚ) / (toks.length : ℚ)) *
      lg ((texts.length : ℚ) / (docFreqOr1 texts stop k : ℚ))))

/-- build_tfidf_vectors: the text-indexed dictionary of vectors. -/
def build_tfidf_vectors (lg : ℚ → ℚ) (texts : List String)
    (stop : List String) : List (String × List (String × ℚ)) :=
  texts.map (fun t => (t, vecFor lg texts stop t))

/-- Dictionary lookup in the vector table; engine lookups never miss, the
default only totalises the function. -/
def vecLookup (tbl : List (String × List (String × ℚ))) (t : String) :
    List (String × ℚ) :=
  ((tbl.find? (fun p => p.1 = t)).map (fun p => p.2)).getD []

def sumSq (v : List (String × ℚ)) : ℚ := (v.map (fun p => p.2 * p.2)).sum

def vGet (v : List (String × ℚ)) (k : String) : ℚ :=
  ((v.find? (fun p => p.1 = k)).map (fun p => p.2)).getD 0

def dotV (v1 v2 : List (String × ℚ)) : ℚ :=
  (((v1.map (fun p => p.1)) ++ (v2.map (fun p => p.1))).dedup.map
    (fun k => vGet v1 k * vGet v2 k)).sum

/-- tfidf_similarity.  The code computes norms as sqrt of the sums of
squares and first tests them against zero; since sqrt x = 0 exactly when
x = 0 for x ≥ 0, the zero test is taken on the sums of squares, and the
sqrt parameter only enters the branch where both are nonzero. -/
def tfidf_similarity (sq : ℚ → ℚ) (v1 v2 : List (String × ℚ)) : ℚ :=
  if sumSq v1 = 0 ∨ sumSq v2 = 0 then 0
  else dotV v1 v2 / (sq (sumSq v1) * sq (sumSq v2))

def levenshtein_similarity (s1 s2 : String) : ℚ :=
  if max s1.length s2.length = 0 then 1 else smRatioVal s1 s2

/-- Length of the common leading run of two strings, capped at
min(len1, len2, 4). -/
def commonLeadCap4 (s1 s2 : String) : ℕ :=
  min (min (min s1.length s2.length) 4)
    (((s1.data.zip s2.data).takeWhile (fun p => p.1 == p.2)).length)

def jaro_winkler_similarity (s1 s2 : String) : ℚ :=
  let base := smRatioVal s1 s2
  base + (1 / 10) * (commonLeadCap4 s1 s2 : ℚ) * (1 - base)

/-- get_blocking_candidates: keep the ingredients sharing at least
min_tokens tokens with the supplier item, where min_tokens is 1 for
single-token ingredients and 2 otherwise. -/
def get_blocking_candidates (item : SupplierItem) (ings : List Ingredient) :
    List Ingredient :=
  ings.filter (fun ing =>
    (if ing.tokens.card = 1 then 1 else 2) ≤ (item.tokens ∩ ing.tokens).card)

/-- MatchingEngine.compute_similarity over the corpus of the engine's
normalized ingredient names. -/
def compute_similarity (lg sq : ℚ → ℚ) (names : List String)
    (supNorm : String) (ingNorm : String) : ℚ :=
  let lev := levenshtein_similarity supNorm ingNorm
  let jw := jaro_winkler_similarity supNorm ingNorm
  let supVec := vecLookup (build_tfidf_vectors lg [supNorm] STOP_WORDS) supNorm
  let ingVec := vecLookup (build_tfidf_vectors lg names STOP_WORDS) ingNorm
  max lev (max jw (tfidf_similarity sq supVec ingVec))

/-- MatchingEngine.match: blocking, scoring, then Python max over
(score, ingredient_id), followed by rounding to four decimal places. -/
def matchItem (lg sq : ℚ → ℚ) (ings : List Ingredient)
    (item : SupplierItem) : MatchResult :=
  let cands := get_blocking_candidates item ings
  if cands.isEmpty then ⟨item.item_id, none, 0⟩
  else
    let scores := cands.map (fun ing =>
      (ing, compute_similarity lg sq (ings.map (fun i => i.normalized_name))
        item.normalized_name ing.normalized_name))
    match scores with
    | [] => ⟨item.item_id, none, 0⟩
    | s :: ss =>
      let best := pyMaxFold (fun p => (p.2, p.1.ingredient_id)) s ss
      ⟨item.item_id, some best.1.ingredient_id, round4 best.2⟩

end SrcM

/-! ## AppM: embedding of app/preprocessing.py and app/matcher.py -/

namespace AppM

/-- TextPreprocessor.STOP_WORDS. -/
def TP_STOP_WORDS : List String :=
  ["pack", "g", "kg", "ml", "l", "liter", "gram",
   "and", "or", "the", "a", "an", "is", "in", "of",
   "full", "extra", "virgin", "unsalted", "unslt",
   "plain", "long", "grain", "red", "white", "peeled"]

/-- Unit alternatives of the first UNIT_PATTERNS regex, in alternation
order; the pattern carries no word-boundary anchor. -/
def appUnits : List (List Char) :=
  ["kg".data, "g".data, "ml".data, "l".data, "liter".data, "litre".data,
   "pound".data, "oz".data, "pcs".data, "piece".data]

/-- CORRECTIONS, in dict insertion order. -/
def CORRECTIONS : List (String × String) :=
  [("gralic", "garlic"), ("garic", "garlic"), ("jeera", "cumin"),
   ("jira", "cumin")]

/-- Combining diacritical marks (category Mn) as filtered after NFD
decomposition; modelled as the main combining block, which is the identity
on ASCII input.  NFD decomposition of precomposed characters is not
modelled (see the header note). -/
def stripMn (l : List Char) : List Char :=
  l.filter (fun c => !(0x300 ≤ c.val && c.val ≤ 0x36f))

/-- Match \d+\s*(unit) at the head, first prefix alternative wins, no
boundary check. -/
def appUnitAt (cs : List Char) : Option Nat :=
  let ds := cs.takeWhile isAsciiDigitC
  if ds.isEmpty then none
  else
    let rest1 := cs.drop ds.length
    let ws := rest1.takeWhile isPyWS
    let rest2 := rest1.drop ws.length
    (appUnits.findSome? (fun u =>
      if u.isPrefixOf rest2 then some u.length else none)).map
      (fun n => ds.length + ws.length + n)

def appUnitScan : Nat → List Char → List Char
  | _, [] => []
  | 0, l => l
  | fuel + 1, c :: cs =>
    match appUnitAt (c :: cs) with
    | some n => appUnitScan fuel ((c :: cs).drop n)
    | none => c :: appUnitScan fuel cs

/-- Lazy match of \(.*?\) at a '(' head: the nearest ')' with no newline
before it.  Returns the count of characters up to and including ')'. -/
def parenAt (cs : List Char) : Option Nat :=
  match cs with
  | '(' :: rest =>
    let seg := rest.takeWhile (fun c => !(c == ')') && !(c == '\n'))
    match rest.drop seg.length with
    | ')' :: _ => some (seg.length + 2)
    | _ => none
  | _ => none

def parenScan : Nat → List Char → List Char
  | _, [] => []
  | 0, l => l
  | fuel + 1, c :: cs =>
    match parenAt (c :: cs) with
    | some n => parenScan fuel ((c :: cs).drop n)
    | none => c :: parenScan fuel cs

/-- TextPreprocessor.normalize_text. -/
def normalize_text (s : String) : String :=
  if s = "" then ""
  else
    let t1 := stripMn (pyStripL (pyLowerL s.data))
    let t2 := t1.map (fun c => if isLowerAlnum c || isPyWS c then c else ' ')
    let t3 := parenScan t2.length (appUnitScan t2.length t2)
    String.mk (pyStripL (wsCollapseL t3))

/-- Word-boundary replacement scanner for re.sub(rf'\b{k}\b', v, text):
the patterns of CORRECTIONS are purely alphabetic, so the boundary before
the match is the previous character not being a word character, and the
boundary after is the next character not being a word character. -/
def wbRepl (pat rep : List Char) : Nat → Bool → List Char → List Char
  | _, _, [] => []
  | 0, _, l => l
  | fuel + 1, prevW, c :: cs =>
    if !prevW && pat.isPrefixOf (c :: cs) &&
        (match (c :: cs).drop pat.length with
         | [] => true
         | d :: _ => !isWordCharC d) then
      rep ++ wbRepl pat rep fuel true ((c :: cs).drop pat.length)
    else c :: wbRepl pat rep fuel (isWordCharC c) cs

/-- TextPreprocessor.correct_misspellings: the four word-boundary
substitutions applied in sequence. -/
def correct_misspellings (s : String) : String :=
  CORRECTIONS.foldl
    (fun t kv => String.mk (wbRepl kv.1.data kv.2.data t.data.length false t.data))
    s

/-- TextPreprocessor.preprocess. -/
def preprocess (s : String) : String := correct_misspellings (normalize_text s)

/-- TextPreprocessor.tokenize: split on whitespace, drop stop words and
single-character tokens. -/
def tokenizeTP (s : String) : List String :=
  (pySplit s).filter (fun t => t ∉ TP_STOP_WORDS ∧ 1 < t.length)

/-- TextPreprocessor.get_tokens. -/
def get_tokens (s : String) : Finset String := (tokenizeTP (preprocess s)).toFinset

/-- An ingredient record of app/matcher.py: a dict with an id and a name. -/
structure AIngredient where
  ingredient_id : ℤ
  name : String
deriving DecidableEq

def strTake (n : ℕ) (s : String) : String := String.mk (s.data.take n)

def nameAt (ings : List AIngredient) (i : ℕ) : String :=
  (ings.getD i ⟨0, ""⟩).name

/-- The list of indices filed under prefix p in BlockingIndex.prefix_index
(ascending, the order the build loop appends them). -/
def pfxIndexLookup (ings : List AIngredient) (p : String) : List ℕ :=
  (List.range ings.length).filter (fun i =>
    (p.length = 2 ∨ p.length = 3) ∧
    p.length ≤ (preprocess (nameAt ings i)).length ∧
    strTake p.length (preprocess (nameAt ings i)) = p)

/-- The list of indices filed under a token in BlockingIndex.token_index. -/
def tokIndexLookup (ings : List AIngredient) (t : String) : List ℕ :=
  (List.range ings.length).filter (fun i => t ∈ get_tokens (nameAt ings i))

/-- The candidates_set built by BlockingIndex.get_candidates before
materialisation: prefix hits, token hits, else the all-entries fallback. -/
def candidateSet (ings : List AIngredient) (q : String) : Finset ℕ :=
  let nq := preprocess q
  let s1 : Finset ℕ :=
    (if 2 ≤ nq.length then (pfxIndexLookup ings (strTake 2 nq)).toFinset else ∅) ∪
    (if 3 ≤ nq.length then (pfxIndexLookup ings (strTake 3 nq)).toFinset else ∅)
  let s2 : Finset ℕ :=
    (get_tokens q).biUnion (fun t => (tokIndexLookup ings t).toFinset)
  if s1 ∪ s2 = ∅ then Finset.range ings.length else s1 ∪ s2

/-- BlockingIndex.get_candidates: list(candidates_set)[:max_candidates],
with the set materialisation order supplied as a parameter. -/
def get_candidates (enum : Finset ℕ → List ℕ) (ings : List AIngredient)
    (q : String) (maxc : ℕ) : List ℕ :=
  (enum (candidateSet ings q)).take maxc

/-- FuzzyMatcher.token_set_similarity. -/
def token_set_similarity (t1 t2 : String) : ℚ :=
  if get_tokens t1 = ∅ ∧ get_tokens t2 = ∅ then 1
  else if get_tokens t1 = ∅ ∨ get_tokens t2 = ∅ then 0
  else if 0 < ((get_tokens t1 ∪ get_tokens t2).card) then
    ((get_tokens t1 ∩ get_tokens t2).card : ℚ) /
      ((get_tokens t1 ∪ get_tokens t2).card : ℚ)
  else 0

/-- FuzzyMatcher.string_similarity. -/
def string_similarity (t1 t2 : String) : ℚ :=
  if preprocess t1 = preprocess t2 then 1
  else if preprocess t1 = "" ∨ preprocess t2 = "" then 0
  else smRatioVal (preprocess t1) (preprocess t2)

/-- FuzzyMatcher.combined_similarity: 60% token overlap, 40% sequence. -/
def combined_similarity (q c : String) : ℚ :=
  (6 / 10) * token_set_similarity q c + (4 / 10) * string_similarity q c

/-- FuzzyMatcher.match_single. -/
def match_single (enum : Finset ℕ → List ℕ) (ings : List AIngredient)
    (q : String) : ℤ × ℚ :=
  if q = "" ∨ pyStrip q = "" then (-1, 0)
  else
    (get_candidates enum ings q 50).foldl
      (fun (b : ℤ × ℚ) idx =>
        let ing := ings.getD idx ⟨0, ""⟩
        let sc := combined_similarity q ing.name
        if b.2 < sc then (ing.ingredient_id, sc) else b)
      (-1, 0)

end AppM

/-! ## PdM: embedding of app/processing.py and app/matching.py -/

namespace PdM

/-- SYNONYM_MAP, in dict insertion order. -/
def SYNONYM_MAP : List (String × String) :=
  [("tomatoes", "tomato"), ("onion", "onion"), ("gralic", "garlic"),
   ("milk full cream", "whole milk"),
   ("extra virgin olive oil", "olive oil"),
   ("jeera", "cumin"), ("jeera seeds", "cumin seeds"),
   ("white sugar", "granulated sugar"),
   ("plain flour", "all-purpose flour"),
   ("unslt", "unsalted"), ("butter unslt", "unsalted butter"),
   ("rice long grain", "white rice")]

/-- CUSTOM_STOP_WORDS of app/processing.py. -/
def CUSTOM_STOP_WORDS : List String :=
  ["extra", "virgin", "peeled", "red", "full", "cream", "plain", "white",
   "long", "grain", "unsl", "unslt", "pack", "g", "kg", "l", "ml"]

/-- nltk.corpus.stopwords.words of the english language.  The entries
containing an apostrophe are omitted: tokenization here runs after every
non-word character has been replaced by a space, so no token can contain
an apostrophe and those entries are unreachable. -/
def NLTK_STOP_WORDS : List String :=
  ["i", "me", "my", "myself", "we", "our", "ours", "ourselves", "you",
   "your", "yours", "yourself", "yourselves", "he", "him", "his",
   "himself", "she", "her", "hers", "herself", "it", "its", "itself",
   "they", "them", "their", "theirs", "themselves", "what", "which",
   "who", "whom", "this", "that", "these", "those", "am", "is", "are",
   "was", "were", "be", "been", "being", "have", "has", "had", "having",
   "do", "does", "did", "doing", "a", "an", "the", "and", "but", "if",
   "or", "because", "as", "until", "while", "of", "at", "by", "for",
   "with", "about", "against", "between", "into", "through", "during",
   "before", "after", "above", "below", "to", "from", "up", "down", "in",
   "out", "on", "off", "over", "under", "again", "further", "then",
   "once", "here", "there", "when", "where", "why", "how", "all", "any",
   "both", "each", "few", "more", "most", "other", "some", "such", "no",
   "nor", "not", "only", "own", "same", "so", "than", "too", "very", "s",
   "t", "can", "will", "just", "don", "should", "now", "d", "ll", "m",
   "o", "re", "ve", "y", "ain", "aren", "couldn", "didn", "doesn",
   "hadn", "hasn", "haven", "isn", "ma", "mightn", "mustn", "needn",
   "shan", "shouldn", "wasn", "weren", "won", "wouldn"]

def PD_STOP_WORDS : List String := NLTK_STOP_WORDS ++ CUSTOM_STOP_WORDS

/-- WordNetLemmatizer.lemmatize with the default noun part of speech,
modelled on the plural nouns that occur in this development; WordNet
returns any word it does not know unchanged. -/
def WORDNET_PLURALS : List (String × String) :=
  [("tomatoes", "tomato"), ("onions", "onion"), ("seeds", "seed"),
   ("items", "item")]

def wordnetLemma (t : String) : String :=
  (((WORDNET_PLURALS.find? (fun kv => kv.1 = t)).map (fun kv => kv.2))).getD t

/-- Unit alternatives of SIZE_REGEX, in alternation order. -/
def pdUnits : List (List Char) :=
  ["kg".data, "g".data, "mg".data, "l".data, "ml".data, "cl".data,
   "oz".data, "lb".data, "pack".data, "can".data, "bottle".data,
   "bunch".data, "ea".data, "pc".data, "tbl".data, "tsp".data]

def pdLower (s : String) : String := String.mk (pyLowerL s.data)

/-- The synonym substitution loop: for each pair in dict order, replace
every occurrence of the key as a raw substring when it occurs. -/
def synonymPass (s : String) : String :=
  SYNONYM_MAP.foldl
    (fun t kv => if containsSubL kv.1.data t.data then pyReplace t kv.1 kv.2 else t)
    s

/-- Match \b\d+[\.,]?\d*\s*(unit)\b at the head of cs, where prevW says
whether the character before cs is a word character (the leading boundary
check, since the pattern starts with a digit).  Greedy consumption is
exact for this pattern: no unit starts with a digit, a separator or a
whitespace character. -/
def pdSizeAt (prevW : Bool) (cs : List Char) : Option Nat :=
  if prevW then none
  else
    let d1 := cs.takeWhile isAsciiDigitC
    if d1.isEmpty then none
    else
      let r1 := cs.drop d1.length
      let pLen : Nat := match r1 with
        | c :: _ => if c == '.' || c == ',' then 1 else 0
        | [] => 0
      let r2 := r1.drop pLen
      let d2 := r2.takeWhile isAsciiDigitC
      let r3 := r2.drop d2.length
      let ws := r3.takeWhile isPyWS
      let r4 := r3.drop ws.length
      (SrcM.unitAltAt pdUnits r4).map
        (fun n => d1.length + pLen + d2.length + ws.length + n)

/-- Scanner for re.sub of SIZE_REGEX by a single space.  After a match the
previous original character is the final unit letter, a word character. -/
def pdSizeScan : Nat → Bool → List Char → List Char
  | _, _, [] => []
  | 0, _, l => l
  | fuel + 1, prevW, c :: cs =>
    match pdSizeAt prevW (c :: cs) with
    | some n => ' ' :: pdSizeScan fuel true ((c :: cs).drop n)
    | none => c :: pdSizeScan fuel (isWordCharC c) cs

def pdSizeSub (s : String) : String :=
  String.mk (pdSizeScan s.data.length false s.data)

/-- re.sub of PUNCT_REGEX = [^\w\s] by a space. -/
def pdPunctSub (s : String) : String :=
  String.mk (s.data.map (fun c => if isWordCharC c || isPyWS c then c else ' '))

/-- The text reaching word_tokenize: lowercasing, synonym substitution,
size removal and punctuation folding.  After pdPunctSub the text contains
only word characters and whitespace, on which nltk.word_tokenize is plain
whitespace splitting. -/
def prePhase (q : String) : String := pdPunctSub (pdSizeSub (synonymPass (pdLower q)))

/-- Python str.isdigit restricted to ASCII digits. -/
def pyIsDigitStr (t : String) : Bool := !t.data.isEmpty && t.data.all isAsciiDigitC

def keepTok (t : String) : Bool :=
  t ∉ PD_STOP_WORDS && decide (1 < t.length) && !pyIsDigitStr t

/-- The lemmatized kept tokens of a query, in text order. -/
def keptLemmas (q : String) : List String :=
  ((pySplit (prePhase q)).filter keepTok).map wordnetLemma

/-- normalize of app/processing.py: sorted(list(set(...))) joined by
single spaces.  Python's sorted produces the ascending enumeration
whatever iteration order the set had, so no order parameter is needed. -/
def normalize (q : String) : String := joinSp (enumOf (keptLemmas q).toFinset)

/-- A Python value usable as a DataFrame id: an int or a str.  Distinct
constructors never compare equal, exactly as Python == on int vs str. -/
inductive PyKey where
  | pint (n : ℤ)
  | pstr (s : String)
deriving DecidableEq

/-- str() of a key. -/
def pyStr : PyKey → String
  | .pint n => toString n
  | .pstr s => s

/-- The normalized-name lookup Matcher builds with
set_index('ingredient_id')['normalized_name'].to_dict(): keyed by the
original id values, later rows overwriting earlier ones. -/
def nlookup (rows : List (PyKey × String)) : List (PyKey × String) :=
  rows.map (fun r => (r.1, normalize r.2))

def pdGet (m : List (PyKey × String)) (k : PyKey) : Option String :=
  (m.reverse.find? (fun p => p.1 = k)).map (fun p => p.2)

/-- The id strings filed under a token in Matcher.index: the blocking
index stores str(ingredient_id). -/
def idxLookup (rows : List (PyKey × String)) (t : String) : Finset String :=
  ((rows.filter (fun r => t ∈ pySplit (normalize r.2))).map
    (fun r => pyStr r.1)).toFinset

/-- Matcher._get_candidates. -/
def getCandidatesPd (rows : List (PyKey × String)) (nq : String) :
    Finset String :=
  let qt := pySplit nq
  if qt.isEmpty then ∅
  else
    let c := qt.toFinset.biUnion (fun t => idxLookup rows t)
    if c = ∅ then (rows.map (fun r => pyStr r.1)).toFinset else c

/-- Matcher.match, with fuzz.token_set_ratio (an external library
function returning a score in [0,100]) and the candidate-set iteration
order passed as parameters.  The threshold argument of the source is
unused by the function and omitted. -/
def matchQuery (tsr : String → String → ℚ)
    (enumS : Finset String → List String)
    (rows : List (PyKey × String)) (raw : String) : Option String × ℚ :=
  if normalize raw = "" then (none, 0)
  else if getCandidatesPd rows (normalize raw) = ∅ then (none, 0)
  else
    match (enumS (getCandidatesPd rows (normalize raw))).foldl
        (fun (b : ℚ × Option String) iid =>
          match pdGet (nlookup rows) (PyKey.pstr iid) with
          | none => b
          | some cn =>
            if cn = "" then b
            else if b.1 < tsr (normalize raw) cn then (tsr (normalize raw) cn, some iid)
            else b)
        (-1, none) with
    | (_, none) => (none, 0)
    | (sc, some iid) => (some iid, sc / 100)

end PdM

/-! ## Basic lemmas: strings as lists -/

theorem strData_inj {s t : String} (h : s.data = t.data) : s = t :=
  congrArg String.mk h

theorem strMk_data (l : List Char) : (String.mk l).data = l := rfl

theorem strLength_data (s : String) : s.length = s.data.length := rfl

theorem strNe_empty_iff {s : String} : s ≠ "" ↔ s.data ≠ [] := by
  constructor
  · intro h hd
    exact h (strData_inj hd)
  · intro h hd
    exact h (by simpa using congrArg String.data hd)

/-! ## Basic lemmas: lcs and smRatioVal -/

theorem lcsF_fuel : ∀ (f g : ℕ) (a b : List Char),
    a.length + b.length ≤ f → a.length + b.length ≤ g →
    lcsF f a b = lcsF g a b := by
  intro f
  induction f with
  | zero =>
    intro g a b hf _
    have ha : a = [] := by
      cases a with
      | nil => rfl
      | cons x xs => simp only [List.length_cons] at hf; omega
    have hb : b = [] := by
      cases b with
      | nil => rfl
      | cons x xs => simp only [List.length_cons] at hf; omega
    subst ha; subst hb
    cases g <;> rfl
  | succ f ih =>
    intro g a b hf hg
    cases g with
    | zero =>
      have ha : a = [] := by
        cases a with
        | nil => rfl
        | cons x xs => simp only [List.length_cons] at hg; omega
      have hb : b = [] := by
        cases b with
        | nil => rfl
        | cons x xs => simp only [List.length_cons] at hg; omega
      subst ha; subst hb; rfl
    | succ g =>
      cases a with
      | nil => cases b <;> rfl
      | cons x xs =>
        cases b with
        | nil => rfl
        | cons y ys =>
          simp only [lcsF]
          simp only [List.length_cons] at hf hg
          by_cases hxy : x = y
          · rw [if_pos hxy, if_pos hxy, ih g xs ys (by omega) (by omega)]
          · rw [if_neg hxy, if_neg hxy,
              ih g (x :: xs) ys (by simp; omega) (by simp; omega),
              ih g xs (y :: ys) (by simp; omega) (by simp; omega)]

theorem lcsF_le_left : ∀ (f : ℕ) (a b : List Char), lcsF f a b ≤ a.length := by
  intro f
  induction f with
  | zero => intro a b; simp [lcsF]
  | succ f ih =>
    intro a b
    cases a with
    | nil => simp [lcsF]
    | cons x xs =>
      cases b with
      | nil => simp [lcsF]
      | cons y ys =>
        simp only [lcsF, List.length_cons]
        by_cases hxy : x = y
        · rw [if_pos hxy]
          exact Nat.succ_le_succ (ih xs ys)
        · rw [if_neg hxy]
          have h1 := ih (x :: xs) ys
          have h2 := ih xs (y :: ys)
          simp only [List.length_cons] at h1
          omega

theorem lcsF_le_right : ∀ (f : ℕ) (a b : List Char), lcsF f a b ≤ b.length := by
  intro f
  induction f with
  | zero => intro a b; simp [lcsF]
  | succ f ih =>
    intro a b
    cases a with
    | nil => simp [lcsF]
    | cons x xs =>
      cases b with
      | nil => simp [lcsF]
      | cons y ys =>
        simp only [lcsF, List.length_cons]
        by_cases hxy : x = y
        · rw [if_pos hxy]
          exact Nat.succ_le_succ (ih xs ys)
        · rw [if_neg hxy]
          have h1 := ih (x :: xs) ys
          have h2 := ih xs (y :: ys)
          simp only [List.length_cons] at h2
          omega

theorem lcsF_self : ∀ (a : List Char) (f : ℕ), a.length + a.length ≤ f →
    lcsF f a a = a.length := by
  intro a
  induction a with
  | nil => intro f _; cases f <;> rfl
  | cons x xs ih =>
    intro f hf
    cases f with
    | zero => simp only [List.length_cons] at hf; omega
    | succ f =>
      have hstep : lcsF (f + 1) (x :: xs) (x :: xs) = lcsF f xs xs + 1 := by
        simp [lcsF]
      simp only [List.length_cons] at hf
      rw [hstep, List.length_cons, ih f (by omega)]

theorem lcsF_full : ∀ (f : ℕ) (a b : List Char), a.length + b.length ≤ f →
    lcsF f a b = a.length → lcsF f a b = b.length → a = b := by
  intro f
  induction f with
  | zero =>
    intro a b hf _ _
    cases a with
    | nil =>
      cases b with
      | nil => rfl
      | cons y ys => simp only [List.length_cons] at hf; omega
    | cons x xs => simp only [List.length_cons] at hf; omega
  | succ f ih =>
    intro a b hf ha hb
    cases a with
    | nil =>
      cases b with
      | nil => rfl
      | cons y ys => simp [lcsF] at hb
    | cons x xs =>
      cases b with
      | nil => simp [lcsF] at ha
      | cons y ys =>
        simp only [List.length_cons] at hf ha hb
        by_cases hxy : x = y
        · subst hxy
          have hstep : lcsF (f + 1) (x :: xs) (x :: ys) = lcsF f xs ys + 1 := by
            simp [lcsF]
          rw [hstep] at ha hb
          have := ih xs ys (by omega) (by omega) (by omega)
          rw [this]
        · exfalso
          simp only [lcsF, if_neg hxy] at ha hb
          have h1 := lcsF_le_right f (x :: xs) ys
          have h2 := lcsF_le_left f xs (y :: ys)
          simp only [List.length_cons] at h1 h2
          omega

theorem lcsL_le_left (a b : List Char) : lcsL a b ≤ a.length := lcsF_le_left _ a b

theorem lcsL_le_right (a b : List Char) : lcsL a b ≤ b.length := lcsF_le_right _ a b

theorem lcsL_self (a : List Char) : lcsL a a = a.length :=
  lcsF_self a _ (le_refl _)

theorem lcsL_full (a b : List Char) (ha : lcsL a b = a.length)
    (hb : lcsL a b = b.length) : a = b :=
  lcsF_full _ a b (le_refl _) ha hb

theorem smRatioVal_self (s : String) : smRatioVal s s = 1 := by
  unfold smRatioVal
  by_cases h : s.length + s.length = 0
  · rw [if_pos h]
  · rw [if_neg h, lcsL_self, strLength_data]
    have hl : (0 : ℚ) < (s.data.length : ℚ) + (s.data.length : ℚ) := by
      rw [strLength_data] at h
      have h' : 0 < s.data.length + s.data.length := Nat.pos_of_ne_zero h
      exact_mod_cast h'
    rw [div_eq_one_iff_eq (by linarith)]
    ring

theorem smRatioVal_nonneg (s t : String) : 0 ≤ smRatioVal s t := by
  unfold smRatioVal
  by_cases h : s.length + t.length = 0
  · rw [if_pos h]; norm_num
  · rw [if_neg h]
    apply div_nonneg
    · positivity
    · positivity

theorem smRatioVal_le_one (s t : String) : smRatioVal s t ≤ 1 := by
  unfold smRatioVal
  by_cases h : s.length + t.length = 0
  · rw [if_pos h]
  · rw [if_neg h]
    have h1 := lcsL_le_left s.data t.data
    have h2 := lcsL_le_right s.data t.data
    have hpos : (0 : ℚ) < (s.length : ℚ) + (t.length : ℚ) := by
      have h' : 0 < s.length + t.length := Nat.pos_of_ne_zero h
      exact_mod_cast h'
    rw [div_le_one hpos]
    rw [strLength_data, strLength_data] at hpos ⊢
    have h1' : (lcsL s.data t.data : ℚ) ≤ (s.data.length : ℚ) := by exact_mod_cast h1
    have h2' : (lcsL s.data t.data : ℚ) ≤ (t.data.length : ℚ) := by exact_mod_cast h2
    linarith

theorem smRatioVal_eq_one_iff (s t : String) : smRatioVal s t = 1 ↔ s = t := by
  constructor
  · intro h
    unfold smRatioVal at h
    by_cases h0 : s.length + t.length = 0
    · have hs : s.data = [] := by
        rw [strLength_data, strLength_data] at h0
        have := Nat.eq_zero_of_add_eq_zero_right h0
        exact List.length_eq_zero.mp this
      have ht : t.data = [] := by
        rw [strLength_data, strLength_data] at h0
        have := Nat.eq_zero_of_add_eq_zero_left h0
        exact List.length_eq_zero.mp this
      exact strData_inj (hs.trans ht.symm)
    · rw [if_neg h0] at h
      have hpos : (0 : ℚ) < (s.length : ℚ) + (t.length : ℚ) := by
        have h' : 0 < s.length + t.length := Nat.pos_of_ne_zero h0
        exact_mod_cast h'
      rw [div_eq_one_iff_eq (by linarith)] at h
      have h1 := lcsL_le_left s.data t.data
      have h2 := lcsL_le_right s.data t.data
      rw [strLength_data, strLength_data] at h
      have hn : 2 * lcsL s.data t.data = s.data.length + t.data.length := by
        exact_mod_cast h
      have ha : lcsL s.data t.data = s.data.length := by omega
      have hb : lcsL s.data t.data = t.data.length := by omega
      exact strData_inj (lcsL_full _ _ ha hb)
  · intro h
    subst h
    exact smRatioVal_self s

theorem smRatioVal_zero_of_no_common (s t : String) (h : lcsL s.data t.data = 0)
    (hne : s.length + t.length ≠ 0) : smRatioVal s t = 0 := by
  unfold smRatioVal
  rw [if_neg hne, h]
  norm_num

/-! ## Basic lemmas: round4 -/

theorem round4_bounds {q : ℚ} (h0 : 0 ≤ q) (h1 : q ≤ 1) :
    0 ≤ round4 q ∧ round4 q ≤ 1 := by
  unfold round4
  have hr : (0 : ℤ) ≤ round (q * 10000) := by
    rw [round_eq]
    have : (0 : ℚ) ≤ q * 10000 + 1 / 2 := by linarith
    exact Int.floor_nonneg.mpr this
  have hr2 : round (q * 10000) ≤ 10000 := by
    rw [round_eq]
    have hlt : q * 10000 + 1 / 2 < ((10001 : ℤ) : ℚ) := by push_cast; linarith
    have := Int.floor_lt.mpr hlt
    omega
  constructor
  · apply div_nonneg _ (by norm_num)
    exact_mod_cast hr
  · rw [div_le_one (by norm_num)]
    exact_mod_cast hr2

theorem round4_one : round4 1 = 1 := by
  unfold round4
  rw [round_eq]
  have hf : ⌊(1 : ℚ) * 10000 + 1 / 2⌋ = (10000 : ℤ) := by
    apply Int.floor_eq_iff.mpr
    constructor <;> norm_num
  rw [hf]
  norm_num

/-! ## Basic lemmas: the lexicographic key order and Python max -/

theorem lexLe_refl (a : ℚ × ℤ) : lexLeQZ a a := Or.inr ⟨rfl, le_refl _⟩

theorem lexLt_le (a b : ℚ × ℤ) (h : lexLtQZ a b) : lexLeQZ a b := by
  rcases h with h | ⟨h1, h2⟩
  · exact Or.inl h
  · exact Or.inr ⟨h1, le_of_lt h2⟩

theorem lexLe_of_not_lt {a b : ℚ × ℤ} (h : ¬lexLtQZ a b) : lexLeQZ b a := by
  unfold lexLtQZ at h
  push_neg at h
  rcases eq_or_lt_of_le h.1 with heq | hlt
  · exact Or.inr ⟨heq, h.2 heq.symm⟩
  · exact Or.inl hlt

theorem lexLe_trans {a b c : ℚ × ℤ} (h1 : lexLeQZ a b) (h2 : lexLeQZ b c) :
    lexLeQZ a c := by
  rcases h1 with h1 | ⟨e1, l1⟩ <;> rcases h2 with h2 | ⟨e2, l2⟩
  · exact Or.inl (h1.trans h2)
  · exact Or.inl (e2 ▸ h1)
  · exact Or.inl (e1 ▸ h2)
  · exact Or.inr ⟨e1.trans e2, l1.trans l2⟩

theorem lexLe_lt_absurd {a b : ℚ × ℤ} (h1 : lexLeQZ a b) (h2 : lexLtQZ b a) :
    False := by
  rcases h1 with h1 | ⟨e1, l1⟩ <;> rcases h2 with h2 | ⟨e2, l2⟩
  · exact absurd (h1.trans h2) (lt_irrefl _)
  · exact absurd (e2 ▸ h1) (lt_irrefl _)
  · exact absurd (e1 ▸ h2) (lt_irrefl _)
  · exact absurd (l1.trans_lt l2) (lt_irrefl _)

theorem pyMaxFold_spec {α : Type} (key : α → ℚ × ℤ) :
    ∀ (xs : List α) (x : α),
      pyMaxFold key x xs ∈ x :: xs ∧
      ∀ y ∈ x :: xs, lexLeQZ (key y) (key (pyMaxFold key x xs)) := by
  intro xs
  induction xs with
  | nil =>
    intro x
    refine ⟨List.mem_singleton_self x, ?_⟩
    intro y hy
    rw [List.mem_singleton] at hy
    subst hy
    exact lexLe_refl _
  | cons a xs ih =>
    intro x
    have step : pyMaxFold key x (a :: xs) =
        pyMaxFold key (if lexLtQZ (key x) (key a) then a else x) xs := rfl
    by_cases h : lexLtQZ (key x) (key a)
    · rw [step, if_pos h]
      obtain ⟨hmem, hmax⟩ := ih a
      refine ⟨List.mem_cons.mpr (Or.inr hmem), ?_⟩
      intro y hy
      rcases (List.mem_cons).mp hy with hy1 | hy2
      · subst hy1
        exact lexLe_trans (lexLt_le _ _ h) (hmax a (List.mem_cons_self _ _))
      · exact hmax y hy2
    · rw [step, if_neg h]
      obtain ⟨hmem, hmax⟩ := ih x
      constructor
      · rcases List.mem_cons.mp hmem with hm | hm
        · rw [hm]; exact List.mem_cons_self _ _
        · exact List.mem_cons.mpr (Or.inr (List.mem_cons.mpr (Or.inr hm)))
      · intro y hy
        rcases (List.mem_cons).mp hy with hy1 | hy2
        · subst hy1
          exact hmax y (List.mem_cons_self _ _)
        · rcases (List.mem_cons).mp hy2 with hy3 | hy4
          · subst hy3
            exact lexLe_trans (lexLe_of_not_lt h) (hmax x (List.mem_cons_self _ _))
          · exact hmax y ((List.mem_cons).mpr (Or.inr hy4))

/-! ## Basic lemmas: enumerations -/

theorem enumOfD_mem {α : Type} [LinearOrder α]
    (dec : DecidableRel ((· ≤ ·) : α → α → Prop)) (s : Finset α) (x : α) :
    x ∈ enumOfD dec s ↔ x ∈ s := by
  obtain ⟨val, nd⟩ := s
  induction val using Quotient.inductionOn with
  | h l =>
    show x ∈ @List.insertionSort α (· ≤ ·) dec l ↔ _
    rw [(List.perm_insertionSort _ l).mem_iff]
    rfl

theorem enumOfD_nodup {α : Type} [LinearOrder α]
    (dec : DecidableRel ((· ≤ ·) : α → α → Prop)) (s : Finset α) :
    (enumOfD dec s).Nodup := by
  obtain ⟨val, nd⟩ := s
  induction val using Quotient.inductionOn with
  | h l =>
    show (@List.insertionSort α (· ≤ ·) dec l).Nodup
    exact ((List.perm_insertionSort _ l).nodup_iff).mpr (by exact nd)

theorem enumOfD_sorted {α : Type} [LinearOrder α]
    (dec : DecidableRel ((· ≤ ·) : α → α → Prop)) (s : Finset α) :
    (enumOfD dec s).Sorted (· ≤ ·) := by
  obtain ⟨val, nd⟩ := s
  induction val using Quotient.inductionOn with
  | h l => exact List.sorted_insertionSort _ l

theorem validEnum_sortEnum : ValidEnum sortEnum := by
  intro s
  exact ⟨enumOfD_nodup _ s, fun x => enumOfD_mem _ s x⟩

theorem validEnum_sortEnumRev : ValidEnum sortEnumRev := by
  intro s
  refine ⟨List.nodup_reverse.mpr (enumOfD_nodup _ s), fun x => ?_⟩
  rw [sortEnumRev, List.mem_reverse]
  exact enumOfD_mem _ s x

theorem validEnum_sortEnumStr : ValidEnum sortEnumStr := by
  intro s
  exact ⟨enumOfD_nodup _ s, fun x => enumOfD_mem _ s x⟩

/-! ## Basic lemmas: whitespace splitting and joining -/

theorem wsSplitStep_ne_nil (c : Char) (acc : List (List Char)) :
    wsSplitStep c acc ≠ [] := by
  unfold wsSplitStep
  by_cases h : isPyWS c
  · simp [h]
  · simp only [h]
    cases acc <;> simp

theorem splitCore_ne (l : List Char) : l.foldr wsSplitStep [[]] ≠ [] := by
  cases l with
  | nil => simp
  | cons c cs => exact wsSplitStep_ne_nil c _

theorem splitCore_wsfree :
    ∀ (l : List Char) (u : List Char), u ∈ l.foldr wsSplitStep [[]] →
      ∀ c ∈ u, isPyWS c = false := by
  intro l
  induction l with
  | nil =>
    intro u hu c hc
    simp only [List.foldr_nil, List.mem_singleton] at hu
    subst hu
    simp at hc
  | cons a l ih =>
    intro u hu c hc
    rw [List.foldr_cons] at hu
    by_cases ha : isPyWS a
    · have hstep : wsSplitStep a (l.foldr wsSplitStep [[]]) =
          [] :: l.foldr wsSplitStep [[]] := by
        unfold wsSplitStep; rw [if_pos ha]
      rw [hstep] at hu
      rcases List.mem_cons.mp hu with h1 | h2
      · subst h1; simp at hc
      · exact ih u h2 c hc
    · cases hp : l.foldr wsSplitStep [[]] with
      | nil => exact absurd hp (splitCore_ne l)
      | cons t ts =>
        rw [hp] at hu
        have hstep : wsSplitStep a (t :: ts) = (a :: t) :: ts := by
          unfold wsSplitStep; rw [if_neg ha]
        rw [hstep] at hu
        have hmt : t ∈ l.foldr wsSplitStep [[]] := by
          rw [hp]; exact List.mem_cons_self t ts
        rcases List.mem_cons.mp hu with h1 | h2
        · subst h1
          rcases List.mem_cons.mp hc with hc1 | hc2
          · subst hc1; simpa using ha
          · exact ih t hmt c hc2
        · have hmu : u ∈ l.foldr wsSplitStep [[]] := by
            rw [hp]; exact List.mem_cons.mpr (Or.inr h2)
          exact ih u hmu c hc

theorem splitCore_prepend :
    ∀ (t l : List Char) (h : List Char) (tl : List (List Char)),
      (∀ c ∈ t, isPyWS c = false) →
      l.foldr wsSplitStep [[]] = h :: tl →
      (t ++ l).foldr wsSplitStep [[]] = (t ++ h) :: tl := by
  intro t
  induction t with
  | nil =>
    intro l h tl _ hl
    simpa using hl
  | cons c t' ih =>
    intro l h tl hws hl
    have hc : isPyWS c = false := hws c (List.mem_cons_self _ _)
    have ht' : ∀ d ∈ t', isPyWS d = false := fun d hd =>
      hws d (List.mem_cons.mpr (Or.inr hd))
    have := ih l h tl ht' hl
    show wsSplitStep c ((t' ++ l).foldr wsSplitStep [[]]) = ((c :: t') ++ h) :: tl
    rw [this]
    unfold wsSplitStep
    rw [if_neg (by simp [hc])]
    simp

theorem splitCore_sep (l : List Char) :
    (' ' :: l).foldr wsSplitStep [[]] = [] :: l.foldr wsSplitStep [[]] := by
  show wsSplitStep ' ' _ = _
  unfold wsSplitStep
  rw [if_pos (by decide)]

theorem wsSplitL_single (t : List Char) (hne : t ≠ [])
    (hws : ∀ c ∈ t, isPyWS c = false) : wsSplitL t = [t] := by
  unfold wsSplitL
  have hpre : (t ++ []).foldr wsSplitStep [[]] = (t ++ []) :: [] := by
    have h0 : ([] : List Char).foldr wsSplitStep [[]] = [] :: [] := rfl
    exact splitCore_prepend t [] [] [] hws h0
  rw [List.append_nil] at hpre
  rw [hpre]
  simp [hne]

theorem wsSplitL_join :
    ∀ (ts : List (List Char)),
      (∀ t ∈ ts, t ≠ [] ∧ ∀ c ∈ t, isPyWS c = false) →
      wsSplitL (joinTokL ts) = ts := by
  intro ts
  induction ts with
  | nil => intro _; rfl
  | cons t ts ih =>
    intro hts
    have ht := hts t (List.mem_cons_self _ _)
    cases ts with
    | nil =>
      show wsSplitL (joinTokL [t]) = [t]
      exact wsSplitL_single t ht.1 ht.2
    | cons u ts' =>
      have hrest : wsSplitL (joinTokL (u :: ts')) = u :: ts' :=
        ih (fun v hv => hts v (List.mem_cons.mpr (Or.inr hv)))
      show wsSplitL (t ++ ' ' :: joinTokL (u :: ts')) = t :: u :: ts'
      unfold wsSplitL
      cases hp : (joinTokL (u :: ts')).foldr wsSplitStep [[]] with
      | nil => exact absurd hp (splitCore_ne _)
      | cons h0 tl0 =>
        have hsep : (' ' :: joinTokL (u :: ts')).foldr wsSplitStep [[]] =
            [] :: h0 :: tl0 := by
          rw [splitCore_sep, hp]
        have hpre := splitCore_prepend t (' ' :: joinTokL (u :: ts')) [] (h0 :: tl0)
          ht.2 hsep
        rw [List.append_nil] at hpre
        rw [hpre]
        have hfil : (t :: h0 :: tl0).filter (fun v => !v.isEmpty) =
            t :: ((h0 :: tl0).filter (fun v => !v.isEmpty)) := by
          rw [List.filter_cons]
          simp [List.isEmpty_iff, ht.1]
        rw [hfil]
        unfold wsSplitL at hrest
        rw [hp] at hrest
        rw [hrest]

theorem mem_wsSplitL {l u : List Char} (hu : u ∈ wsSplitL l) :
    u ≠ [] ∧ ∀ c ∈ u, isPyWS c = false := by
  unfold wsSplitL at hu
  have h1 := List.of_mem_filter hu
  have h2 := List.mem_of_mem_filter hu
  refine ⟨?_, splitCore_wsfree l u h2⟩
  intro hnil
  subst hnil
  simp at h1

theorem mem_pySplit {s : String} {t : String} (ht : t ∈ pySplit s) :
    t ≠ "" ∧ ∀ c ∈ t.data, isPyWS c = false := by
  unfold pySplit at ht
  obtain ⟨u, hu, he⟩ := List.mem_map.mp ht
  obtain ⟨h1, h2⟩ := mem_wsSplitL hu
  subst he
  constructor
  · rw [strNe_empty_iff, strMk_data]
    exact h1
  · rw [strMk_data]
    exact h2

theorem pySplit_joinSp (ts : List String)
    (h : ∀ t ∈ ts, t ≠ "" ∧ ∀ c ∈ t.data, isPyWS c = false) :
    pySplit (joinSp ts) = ts := by
  unfold pySplit joinSp
  rw [strMk_data]
  have hl : wsSplitL (joinTokL (ts.map String.data)) = ts.map String.data := by
    apply wsSplitL_join
    intro t htm
    obtain ⟨s, hs, he⟩ := List.mem_map.mp htm
    obtain ⟨h1, h2⟩ := h s hs
    subst he
    exact ⟨(strNe_empty_iff).mp h1, h2⟩
  rw [hl, List.map_map]
  have : (String.mk ∘ String.data) = id := by
    funext s
    rfl
  rw [this, List.map_id]

theorem joinSp_ne_empty {ts : List String} (h : joinSp ts ≠ "") : ts ≠ [] := by
  intro he
  subst he
  exact h rfl

theorem pySplit_empty : pySplit "" = [] := by decide

/-! ## Engine lemmas: the one-document TF-IDF corpus -/

namespace SrcM

theorem docFreq_single (stop : List String) (s k : String)
    (hk : k ∈ (pySplit s).filter (fun u => u ∉ stop)) :
    docFreq [s] stop k = 1 := by
  unfold docFreq
  rw [List.filter_cons]
  rw [if_pos (by simpa using hk)]
  rfl

theorem vecFor_single_zero (lg : ℚ → ℚ) (stop : List String) (s : String)
    (hlg : lg 1 = 0) : ∀ p ∈ vecFor lg [s] stop s, p.2 = 0 := by
  intro p hp
  unfold vecFor at hp
  obtain ⟨k, hk, he⟩ := List.mem_map.mp hp
  have hk' : k ∈ (pySplit s).filter (fun u => u ∉ stop) := List.mem_dedup.mp hk
  have hdf : docFreq [s] stop k = 1 := docFreq_single stop s k hk'
  have hdf1 : docFreqOr1 [s] stop k = 1 := by
    unfold docFreqOr1
    rw [hdf]
    norm_num
  subst he
  show ((pySplit s).count k : ℚ) / ((pySplit s).length : ℚ) *
      lg (((List.length [s] : ℕ) : ℚ) / ((docFreqOr1 [s] stop k : ℕ) : ℚ)) = 0
  rw [hdf1]
  norm_num
  right
  simpa using hlg

theorem sumSq_zero {v : List (String × ℚ)} (h : ∀ p ∈ v, p.2 = 0) :
    sumSq v = 0 := by
  unfold sumSq
  apply List.sum_eq_zero
  intro x hx
  obtain ⟨p, hp, he⟩ := List.mem_map.mp hx
  rw [← he, h p hp]
  ring

theorem tfidf_zero_left (sq : ℚ → ℚ) (v1 v2 : List (String × ℚ))
    (h : sumSq v1 = 0) : tfidf_similarity sq v1 v2 = 0 := by
  unfold tfidf_similarity
  rw [if_pos (Or.inl h)]

theorem supVec_eq (lg : ℚ → ℚ) (stop : List String) (s : String) :
    vecLookup (build_tfidf_vectors lg [s] stop) s = vecFor lg [s] stop s := by
  unfold vecLookup build_tfidf_vectors
  simp [List.find?]

theorem jw_nonneg (s t : String) : 0 ≤ jaro_winkler_similarity s t := by
  unfold jaro_winkler_similarity
  have hb0 := smRatioVal_nonneg s t
  have hb1 := smRatioVal_le_one s t
  have hp : (0 : ℚ) ≤ (commonLeadCap4 s t : ℚ) := by positivity
  nlinarith

theorem commonLeadCap4_le (s t : String) : commonLeadCap4 s t ≤ 4 := by
  unfold commonLeadCap4
  omega

theorem jw_le_one (s t : String) : jaro_winkler_similarity s t ≤ 1 := by
  unfold jaro_winkler_similarity
  have hb0 := smRatioVal_nonneg s t
  have hb1 := smRatioVal_le_one s t
  have hp0 : (0 : ℚ) ≤ (commonLeadCap4 s t : ℚ) := by positivity
  have hp4 : (commonLeadCap4 s t : ℚ) ≤ 4 := by
    exact_mod_cast commonLeadCap4_le s t
  nlinarith

theorem jw_eq_one_imp (s t : String) (h : jaro_winkler_similarity s t = 1) :
    smRatioVal s t = 1 := by
  unfold jaro_winkler_similarity at h
  have hb1 := smRatioVal_le_one s t
  have hp0 : (0 : ℚ) ≤ (commonLeadCap4 s t : ℚ) := by positivity
  have hp4 : (commonLeadCap4 s t : ℚ) ≤ 4 := by
    exact_mod_cast commonLeadCap4_le s t
  nlinarith

theorem jw_self (s : String) : jaro_winkler_similarity s s = 1 := by
  unfold jaro_winkler_similarity
  rw [smRatioVal_self]
  ring

theorem lev_nonneg (s t : String) : 0 ≤ levenshtein_similarity s t := by
  unfold levenshtein_similarity
  by_cases h : max s.length t.length = 0
  · rw [if_pos h]; norm_num
  · rw [if_neg h]; exact smRatioVal_nonneg s t

theorem lev_le_one (s t : String) : levenshtein_similarity s t ≤ 1 := by
  unfold levenshtein_similarity
  by_cases h : max s.length t.length = 0
  · rw [if_pos h]
  · rw [if_neg h]; exact smRatioVal_le_one s t

theorem lev_self (s : String) : levenshtein_similarity s s = 1 := by
  unfold levenshtein_similarity
  by_cases h : max s.length s.length = 0
  · rw [if_pos h]
  · rw [if_neg h]; exact smRatioVal_self s

theorem lev_eq_one_imp (s t : String) (hs : s ≠ "")
    (h : levenshtein_similarity s t = 1) : s = t := by
  unfold levenshtein_similarity at h
  have hlen : max s.length t.length ≠ 0 := by
    intro h0
    apply hs
    have : s.length = 0 := by omega
    have hd : s.data = [] := List.length_eq_zero.mp this
    exact strData_inj hd
  rw [if_neg hlen] at h
  exact (smRatioVal_eq_one_iff s t).mp h

/-- With a one-document query corpus the TF-IDF metric vanishes, so
compute_similarity is the maximum of the other two metrics. -/
theorem compute_similarity_eq_max (lg sq : ℚ → ℚ) (hlg : lg 1 = 0)
    (names : List String) (sn inorm : String) :
    compute_similarity lg sq names sn inorm =
      max (levenshtein_similarity sn inorm) (jaro_winkler_similarity sn inorm) := by
  simp only [compute_similarity]
  have hz : tfidf_similarity sq
      (vecLookup (build_tfidf_vectors lg [sn] STOP_WORDS) sn)
      (vecLookup (build_tfidf_vectors lg names STOP_WORDS) inorm) = 0 := by
    apply tfidf_zero_left
    rw [supVec_eq]
    exact sumSq_zero (vecFor_single_zero lg STOP_WORDS sn hlg)
  rw [hz]
  rw [max_eq_left (jw_nonneg sn inorm)]

theorem compute_similarity_nonneg (lg sq : ℚ → ℚ) (hlg : lg 1 = 0)
    (names : List String) (sn inorm : String) :
    0 ≤ compute_similarity lg sq names sn inorm := by
  rw [compute_similarity_eq_max lg sq hlg]
  exact le_max_of_le_left (lev_nonneg sn inorm)

theorem compute_similarity_le_one (lg sq : ℚ → ℚ) (hlg : lg 1 = 0)
    (names : List String) (sn inorm : String) :
    compute_similarity lg sq names sn inorm ≤ 1 := by
  rw [compute_similarity_eq_max lg sq hlg]
  exact max_le (lev_le_one sn inorm) (jw_le_one sn inorm)

theorem compute_similarity_self (lg sq : ℚ → ℚ) (hlg : lg 1 = 0)
    (names : List String) (sn : String) :
    compute_similarity lg sq names sn sn = 1 := by
  rw [compute_similarity_eq_max lg sq hlg, lev_self, jw_self]
  norm_num

theorem compute_similarity_eq_one_imp (lg sq : ℚ → ℚ) (hlg : lg 1 = 0)
    (names : List String) (sn inorm : String) (hs : sn ≠ "")
    (h : compute_similarity lg sq names sn inorm = 1) : sn = inorm := by
  rw [compute_similarity_eq_max lg sq hlg] at h
  rcases max_choice (levenshtein_similarity sn inorm)
      (jaro_winkler_similarity sn inorm) with hm | hm
  · exact lev_eq_one_imp sn inorm hs (hm ▸ h)
  · have := jw_eq_one_imp sn inorm (hm ▸ h)
    exact (smRatioVal_eq_one_iff sn inorm).mp this |>.symm ▸
      (smRatioVal_eq_one_iff sn inorm).mp this

/-- Membership in the blocking candidate list. -/
theorem mem_get_blocking_candidates (item : SupplierItem)
    (ings : List Ingredient) (ing : Ingredient) :
    ing ∈ get_blocking_candidates item ings ↔
      ing ∈ ings ∧
      (if ing.tokens.card = 1 then 1 else 2) ≤ (item.tokens ∩ ing.tokens).card := by
  unfold get_blocking_candidates
  rw [List.mem_filter]
  simp only [decide_eq_true_eq]

/-- The selector of MatchingEngine.match: when blocking returns a nonempty
candidate list, the result is the candidate whose (score, id) pair is
lexicographically maximal (first such in case of duplicated records). -/
theorem matchItem_best_spec (lg sq : ℚ → ℚ) (ings : List Ingredient)
    (item : SupplierItem)
    (hc : get_blocking_candidates item ings ≠ []) :
    ∃ best ∈ get_blocking_candidates item ings,
      matchItem lg sq ings item =
        ⟨item.item_id, some best.ingredient_id,
          round4 (compute_similarity lg sq (ings.map (fun i => i.normalized_name))
            item.normalized_name best.normalized_name)⟩ ∧
      ∀ c ∈ get_blocking_candidates item ings,
        lexLeQZ
          (compute_similarity lg sq (ings.map (fun i => i.normalized_name))
            item.normalized_name c.normalized_name, c.ingredient_id)
          (compute_similarity lg sq (ings.map (fun i => i.normalized_name))
            item.normalized_name best.normalized_name, best.ingredient_id) := by
  set names := ings.map (fun i => i.normalized_name) with hnames
  set sim := fun ing : Ingredient =>
    compute_similarity lg sq names item.normalized_name ing.normalized_name
    with hsim
  cases hcl : get_blocking_candidates item ings with
  | nil => exact absurd hcl hc
  | cons c cs =>
    have hul : matchItem lg sq ings item =
        ⟨item.item_id,
          some (pyMaxFold (fun p : Ingredient × ℚ => (p.2, p.1.ingredient_id))
            (c, sim c) (cs.map (fun ing => (ing, sim ing)))).1.ingredient_id,
          round4 (pyMaxFold (fun p : Ingredient × ℚ => (p.2, p.1.ingredient_id))
            (c, sim c) (cs.map (fun ing => (ing, sim ing)))).2⟩ := by
      simp only [matchItem, hcl, List.map_cons, List.isEmpty_cons, hsim, hnames]
      rfl
    rw [hul]
    obtain ⟨hmem, hmax⟩ := pyMaxFold_spec
      (fun p : Ingredient × ℚ => (p.2, p.1.ingredient_id))
      (cs.map (fun ing => (ing, sim ing))) (c, sim c)
    set bestp := pyMaxFold (fun p : Ingredient × ℚ => (p.2, p.1.ingredient_id))
      (c, sim c) (cs.map (fun ing => (ing, sim ing))) with hbp
    have hmem' : bestp ∈ (c :: cs).map (fun ing => (ing, sim ing)) := by
      simpa using hmem
    obtain ⟨bing, hbing, hbe⟩ := List.mem_map.mp hmem'
    refine ⟨bing, hbing, ?_, ?_⟩
    · rw [← hbe]
    · intro c' hc'
      have : (c', sim c') ∈ (c, sim c) :: cs.map (fun ing => (ing, sim ing)) := by
        have : (c', sim c') ∈ (c :: cs).map (fun ing => (ing, sim ing)) :=
          List.mem_map.mpr ⟨c', hc', rfl⟩
        simpa using this
      have h := hmax (c', sim c') this
      rw [← hbe] at h
      exact h

end SrcM

/-! ## Engine lemmas: FuzzyMatcher bounds and folds -/

namespace AppM

theorem token_set_similarity_nonneg (t1 t2 : String) :
    0 ≤ token_set_similarity t1 t2 := by
  unfold token_set_similarity
  split_ifs with h1 h2 h3
  · exact zero_le_one
  · exact le_refl 0
  · exact div_nonneg (Nat.cast_nonneg _) (Nat.cast_nonneg _)
  · exact le_refl 0

theorem token_set_similarity_le_one (t1 t2 : String) :
    token_set_similarity t1 t2 ≤ 1 := by
  unfold token_set_similarity
  split_ifs with h1 h2 h3
  · exact le_refl 1
  · exact zero_le_one
  · rw [div_le_one (Nat.cast_pos.mpr h3)]
    have hsub : get_tokens t1 ∩ get_tokens t2 ⊆ get_tokens t1 ∪ get_tokens t2 :=
      (Finset.inter_subset_left).trans Finset.subset_union_left
    exact Nat.cast_le.mpr (Finset.card_le_card hsub)
  · exact zero_le_one

theorem string_similarity_nonneg (t1 t2 : String) :
    0 ≤ string_similarity t1 t2 := by
  unfold string_similarity
  split_ifs with h1 h2
  · exact zero_le_one
  · exact le_refl 0
  · exact smRatioVal_nonneg _ _

theorem string_similarity_le_one (t1 t2 : String) :
    string_similarity t1 t2 ≤ 1 := by
  unfold string_similarity
  split_ifs with h1 h2
  · exact le_refl 1
  · exact zero_le_one
  · exact smRatioVal_le_one _ _

theorem combined_similarity_nonneg (q c : String) :
    0 ≤ combined_similarity q c := by
  unfold combined_similarity
  have h1 := token_set_similarity_nonneg q c
  have h2 := string_similarity_nonneg q c
  linarith

theorem combined_similarity_le_one (q c : String) :
    combined_similarity q c ≤ 1 := by
  unfold combined_similarity
  have h1 := token_set_similarity_le_one q c
  have h2 := string_similarity_le_one q c
  have h3 := token_set_similarity_nonneg q c
  have h4 := string_similarity_nonneg q c
  linarith

theorem match_single_fold_bounds (ings : List AIngredient) (q : String) :
    ∀ (l : List ℕ) (b : ℤ × ℚ), 0 ≤ b.2 → b.2 ≤ 1 →
      0 ≤ (l.foldl
        (fun (b : ℤ × ℚ) idx =>
          let ing := ings.getD idx ⟨0, ""⟩
          let sc := combined_similarity q ing.name
          if b.2 < sc then (ing.ingredient_id, sc) else b) b).2 ∧
      (l.foldl
        (fun (b : ℤ × ℚ) idx =>
          let ing := ings.getD idx ⟨0, ""⟩
          let sc := combined_similarity q ing.name
          if b.2 < sc then (ing.ingredient_id, sc) else b) b).2 ≤ 1 := by
  intro l
  induction l with
  | nil => intro b h0 h1; exact ⟨h0, h1⟩
  | cons idx l ih =>
    intro b h0 h1
    rw [List.foldl_cons]
    by_cases hlt : b.2 < combined_similarity q (ings.getD idx ⟨0, ""⟩).name
    · simp only [if_pos hlt]
      exact ih _ (combined_similarity_nonneg _ _) (combined_similarity_le_one _ _)
    · simp only [if_neg hlt]
      exact ih b h0 h1

theorem match_single_fold_zero (ings : List AIngredient) (q : String)
    (l : List ℕ)
    (hz : ∀ idx ∈ l, combined_similarity q ((ings.getD idx ⟨0, ""⟩)).name = 0) :
    l.foldl
      (fun (b : ℤ × ℚ) idx =>
        let ing := ings.getD idx ⟨0, ""⟩
        let sc := combined_similarity q ing.name
        if b.2 < sc then (ing.ingredient_id, sc) else b) ((-1 : ℤ), (0 : ℚ)) =
      ((-1 : ℤ), (0 : ℚ)) := by
  induction l with
  | nil => rfl
  | cons idx l ih =>
    rw [List.foldl_cons]
    have h0 : combined_similarity q ((ings.getD idx ⟨0, ""⟩)).name = 0 :=
      hz idx (List.mem_cons_self _ _)
    simp only [h0]
    rw [if_neg (by norm_num)]
    exact ih (fun i hi => hz i (List.mem_cons.mpr (Or.inr hi)))

theorem get_candidates_sub (enum : Finset ℕ → List ℕ) (henum : ValidEnum enum)
    (ings : List AIngredient) (q : String) (maxc : ℕ) :
    (get_candidates enum ings q maxc).length ≤ maxc ∧
    ∀ i ∈ get_candidates enum ings q maxc, i ∈ candidateSet ings q := by
  unfold get_candidates
  refine ⟨List.length_take_le _ _, ?_⟩
  intro i hi
  have := List.mem_of_mem_take hi
  exact ((henum (candidateSet ings q)).2 i).mp this

end AppM

/-! ## Engine lemmas: pandas Matcher and processing.normalize -/

theorem list_toFinset_map {α β : Type} [DecidableEq α] [DecidableEq β]
    (f : α → β) (l : List α) : (l.map f).toFinset = l.toFinset.image f := by
  ext x
  simp [List.mem_map, Finset.mem_image]

namespace PdM

theorem wordnetLemma_tok (u : String) (hne : u ≠ "")
    (hws : ∀ c ∈ u.data, isPyWS c = false) :
    wordnetLemma u ≠ "" ∧ ∀ c ∈ (wordnetLemma u).data, isPyWS c = false := by
  unfold wordnetLemma
  cases hf : WORDNET_PLURALS.find? (fun kv => kv.1 = u) with
  | none => exact ⟨hne, hws⟩
  | some kv =>
    have hmem : kv ∈ WORDNET_PLURALS := List.mem_of_find?_eq_some hf
    have : ∀ p ∈ WORDNET_PLURALS, p.2 ≠ "" ∧ ∀ c ∈ p.2.data, isPyWS c = false := by
      decide
    exact this kv hmem

theorem keptLemmas_tok {q t : String} (ht : t ∈ keptLemmas q) :
    t ≠ "" ∧ ∀ c ∈ t.data, isPyWS c = false := by
  unfold keptLemmas at ht
  obtain ⟨u, hu, he⟩ := List.mem_map.mp ht
  have hus := List.mem_of_mem_filter hu
  obtain ⟨h1, h2⟩ := mem_pySplit hus
  subst he
  exact wordnetLemma_tok u h1 h2

/-- The token list of a normalized string: normalize round-trips through
pySplit onto the sorted enumeration of the kept lemmatized tokens. -/
theorem pySplit_normalize (q : String) :
    pySplit (normalize q) = enumOf (keptLemmas q).toFinset := by
  unfold normalize
  apply pySplit_joinSp
  intro t htm
  have : t ∈ (keptLemmas q).toFinset := by
    rw [← enumOfD_mem strLeDec]
    exact htm
  exact keptLemmas_tok (List.mem_toFinset.mp this)

theorem normalize_tokens_ne {q : String} (h : normalize q ≠ "") :
    pySplit (normalize q) ≠ [] := by
  rw [pySplit_normalize]
  intro he
  apply h
  unfold normalize
  rw [he]
  rfl

theorem keptLemmas_toFinset (q : String) :
    (keptLemmas q).toFinset =
      ((pySplit (prePhase q)).toFinset.filter (fun t => keepTok t)).image
        wordnetLemma := by
  unfold keptLemmas
  rw [list_toFinset_map, List.toFinset_filter]

/-- normalize depends on the pre-tokenization phase only through the SET of
its whitespace tokens. -/
theorem normalize_of_preTokens_eq {s t : String}
    (h : (pySplit (prePhase s)).toFinset = (pySplit (prePhase t)).toFinset) :
    normalize s = normalize t := by
  unfold normalize
  rw [keptLemmas_toFinset, keptLemmas_toFinset, h]

theorem getCandidatesPd_ne (rows : List (PyKey × String)) (nq : String)
    (hrows : rows ≠ []) (hq : pySplit nq ≠ []) :
    getCandidatesPd rows nq ≠ ∅ := by
  simp only [getCandidatesPd]
  rw [if_neg (by simpa [List.isEmpty_iff] using hq)]
  by_cases hcs : (pySplit nq).toFinset.biUnion (fun t => idxLookup rows t) = ∅
  · rw [if_pos hcs]
    cases rows with
    | nil => exact absurd rfl hrows
    | cons r rs =>
      simp only [List.map_cons, List.toFinset_cons]
      exact Finset.insert_ne_empty _ _
  · rw [if_neg hcs]
    exact hcs

theorem pdGet_miss (rows : List (PyKey × String))
    (hint : ∀ r ∈ rows, ∃ n, r.1 = PyKey.pint n) (iid : String) :
    pdGet (nlookup rows) (PyKey.pstr iid) = none := by
  unfold pdGet
  rw [List.find?_eq_none.mpr]
  · rfl
  · intro p hp
    rw [List.mem_reverse] at hp
    unfold nlookup at hp
    obtain ⟨r, hr, he⟩ := List.mem_map.mp hp
    obtain ⟨n, hn⟩ := hint r hr
    subst he
    simp [hn]

end PdM

namespace SrcM

theorem lookupAbbrev_tok (u : String) (hne : u ≠ "")
    (hws : ∀ c ∈ u.data, isPyWS c = false) :
    lookupAbbrev u ≠ "" ∧ ∀ c ∈ (lookupAbbrev u).data, isPyWS c = false := by
  unfold lookupAbbrev
  cases hf : ABBREVIATIONS.find? (fun kv => kv.1 = u) with
  | none => exact ⟨hne, hws⟩
  | some kv =>
    have hmem : kv ∈ ABBREVIATIONS := List.mem_of_find?_eq_some hf
    have : ∀ p ∈ ABBREVIATIONS, p.2 ≠ "" ∧ ∀ c ∈ p.2.data, isPyWS c = false := by
      decide
    exact this kv hmem

theorem preprocess_split (s : String) :
    pySplit (preprocess_text s).1 =
      (pySplit (remove_size_info (normalize_text s))).map lookupAbbrev := by
  show pySplit (expand_abbreviations (remove_size_info (normalize_text s))) = _
  unfold expand_abbreviations
  apply pySplit_joinSp
  intro t htm
  obtain ⟨u, hu, he⟩ := List.mem_map.mp htm
  obtain ⟨h1, h2⟩ := mem_pySplit hu
  subst he
  exact lookupAbbrev_tok u h1 h2

theorem preprocess_tokens_ne (s : String) (h : (preprocess_text s).1 ≠ "") :
    (preprocess_text s).2 ≠ ∅ := by
  have h2 : (preprocess_text s).2 = (pySplit (preprocess_text s).1).toFinset := rfl
  rw [h2, preprocess_split]
  have hne : (pySplit (remove_size_info (normalize_text s))).map lookupAbbrev ≠ [] := by
    intro hnil
    apply h
    show expand_abbreviations (remove_size_info (normalize_text s)) = ""
    unfold expand_abbreviations
    rw [hnil]
    rfl
  cases hl : (pySplit (remove_size_info (normalize_text s))).map lookupAbbrev with
  | nil => exact absurd hl hne
  | cons t ts =>
    simp only [List.toFinset_cons]
    exact Finset.insert_ne_empty _ _

theorem matchItem_nil (lg sq : ℚ → ℚ) (ings : List Ingredient)
    (item : SupplierItem) (h : get_blocking_candidates item ings = []) :
    matchItem lg sq ings item = ⟨item.item_id, none, 0⟩ := by
  simp [matchItem, h]

theorem matchItem_conf_bounds (lg sq : ℚ → ℚ) (hlg : lg 1 = 0)
    (ings : List Ingredient) (item : SupplierItem) :
    0 ≤ (matchItem lg sq ings item).confidence ∧
    (matchItem lg sq ings item).confidence ≤ 1 := by
  by_cases hcl : get_blocking_candidates item ings = []
  · rw [matchItem_nil lg sq ings item hcl]
    exact ⟨le_refl 0, zero_le_one⟩
  · obtain ⟨best, _, heq, _⟩ := matchItem_best_spec lg sq ings item hcl
    rw [heq]
    exact round4_bounds
      (compute_similarity_nonneg lg sq hlg _ _ _)
      (compute_similarity_le_one lg sq hlg _ _ _)

end SrcM

theorem AppM.match_single_bounds (enum : Finset ℕ → List ℕ)
    (ings : List AppM.AIngredient) (q : String) :
    0 ≤ (AppM.match_single enum ings q).2 ∧
    (AppM.match_single enum ings q).2 ≤ 1 := by
  unfold AppM.match_single
  split_ifs with h
  · exact ⟨le_refl 0, zero_le_one⟩
  · exact AppM.match_single_fold_bounds ings q _ ((-1 : ℤ), (0 : ℚ))
      (le_refl 0) zero_le_one

/-! ## Claim theorems -/

/-- C6 (amended): the shared-token minimum rule — 1 for single-token
entries, 2 otherwise — is exactly the candidate-membership rule of
get_blocking_candidates in src/matcher.py; the BlockingIndex of
app/matcher.py uses a different rule (see the counterexample). -/
theorem claim_C6_theorem (item : SrcM.SupplierItem)
    (ings : List SrcM.Ingredient) (ing : SrcM.Ingredient) :
    ing ∈ SrcM.get_blocking_candidates item ings ↔
      ing ∈ ings ∧
      (if ing.tokens.card = 1 then 1 else 2) ≤ (item.tokens ∩ ing.tokens).card :=
  SrcM.mem_get_blocking_candidates item ings ing

/-- C6 (counterexample): BlockingIndex.get_candidates of app/matcher.py
admits the two-token entry "tomato soup" for the query "tomato" although
they share only one token, so the claimed minimum-2 rule does not hold for
that implementation. -/
theorem claim_C6_counterexample :
    AppM.get_candidates sortEnum [⟨1, "tomato soup"⟩] "tomato" 50 = [0] ∧
    (AppM.get_tokens "tomato" ∩ AppM.get_tokens "tomato soup").card = 1 ∧
    (AppM.get_tokens "tomato soup").card = 2 := by
  refine ⟨by decide, by decide, by decide⟩

/-- C3 (counterexample): normalize of app/processing.py is neither
order-independent nor idempotent: "white sugar" and "sugar white"
normalize differently because the synonym table rewrites the raw phrase
before tokenization, and a second application of normalize can fire a
synonym rule that the first created by sorting the tokens. -/
theorem claim_C3_counterexample :
    PdM.normalize "white sugar" ≠ PdM.normalize "sugar white" ∧
    PdM.normalize (PdM.normalize "sugarb awhite") ≠ PdM.normalize "sugarb awhite" := by
  refine ⟨by decide, by decide⟩

/-- C3 (amended): normalize always outputs a strictly sorted,
deduplicated token string, and it is order-independent whenever the
substring-rewriting prefix of the pipeline (lowercasing, synonym
substitution, size removal, punctuation folding) yields the same token
set for both inputs; the unconditional idempotence and order-independence
of the claim fail (see the counterexample). -/
theorem claim_C3_theorem :
    (∀ s t : String,
      (pySplit (PdM.prePhase s)).toFinset = (pySplit (PdM.prePhase t)).toFinset →
      PdM.normalize s = PdM.normalize t) ∧
    (∀ q : String, (pySplit (PdM.normalize q)).Sorted (· < ·)) := by
  constructor
  · intro s t h
    exact PdM.normalize_of_preTokens_eq h
  · intro q
    rw [PdM.pySplit_normalize]
    exact (enumOfD_sorted strLeDec _).lt_of_le (enumOfD_nodup strLeDec _)

/-- C3 (witness): the order-independence part applied to the pair
"tomato onion" / "onion tomato", on which no substring rule fires. -/
theorem claim_C3_witness :
    (pySplit (PdM.prePhase "tomato onion")).toFinset =
      (pySplit (PdM.prePhase "onion tomato")).toFinset ∧
    PdM.normalize "tomato onion" = PdM.normalize "onion tomato" :=
  ⟨by decide, claim_C3_theorem.1 "tomato onion" "onion tomato" (by decide)⟩

/-- C7 (counterexample): get_candidates materialises the candidate set
with list(candidates_set)[:max] and performs no ascending-id sort, so two
legitimate set-iteration orders produce different truncated candidate
lists over the same catalog and query. -/
theorem claim_C7_counterexample :
    ∃ f g : Finset ℕ → List ℕ, ValidEnum f ∧ ValidEnum g ∧
      AppM.get_candidates f
        [⟨1, "tomato soup"⟩, ⟨2, "tomato paste"⟩, ⟨3, "cherry tomato"⟩]
        "tomato" 2 ≠
      AppM.get_candidates g
        [⟨1, "tomato soup"⟩, ⟨2, "tomato paste"⟩, ⟨3, "cherry tomato"⟩]
        "tomato" 2 := by
  refine ⟨sortEnum, sortEnumRev, validEnum_sortEnum, validEnum_sortEnumRev, ?_⟩
  decide

/-- C7 (amended): for every set-iteration order, get_candidates returns at
most max_candidates indices and only indices of the blocking candidate
set; the ascending-id order and cross-run stability of the claim are not
established by the code (see the counterexample). -/
theorem claim_C7_theorem (enum : Finset ℕ → List ℕ) (henum : ValidEnum enum)
    (ings : List AppM.AIngredient) (q : String) (maxc : ℕ) :
    (AppM.get_candidates enum ings q maxc).length ≤ maxc ∧
    ∀ i ∈ AppM.get_candidates enum ings q maxc, i ∈ AppM.candidateSet ings q :=
  AppM.get_candidates_sub enum henum ings q maxc

/-- C7 (witness): the amended statement at the ascending enumeration on a
three-entry catalog with max_candidates 2. -/
theorem claim_C7_witness :
    ValidEnum sortEnum ∧
    ((AppM.get_candidates sortEnum
        [⟨1, "tomato soup"⟩, ⟨2, "tomato paste"⟩, ⟨3, "cherry tomato"⟩]
        "tomato" 2).length ≤ 2 ∧
      ∀ i ∈ AppM.get_candidates sortEnum
        [⟨1, "tomato soup"⟩, ⟨2, "tomato paste"⟩, ⟨3, "cherry tomato"⟩]
        "tomato" 2,
        i ∈ AppM.candidateSet
          [⟨1, "tomato soup"⟩, ⟨2, "tomato paste"⟩, ⟨3, "cherry tomato"⟩]
          "tomato") :=
  ⟨validEnum_sortEnum,
    claim_C7_theorem sortEnum validEnum_sortEnum _ "tomato" 2⟩

/-- C9: with the query treated as a one-document corpus, every entry of
the query TF-IDF vector is tf * log(1) = 0, its cosine similarity against
any vector is 0, and compute_similarity reduces to the maximum of the
Levenshtein-based and Jaro-Winkler similarities. -/
theorem claim_C9_theorem (lg sq : ℚ → ℚ) (hlg : lg 1 = 0)
    (names : List String) (sn inorm : String) :
    (∀ p ∈ SrcM.vecLookup (SrcM.build_tfidf_vectors lg [sn] SrcM.STOP_WORDS) sn,
      p.2 = 0) ∧
    (∀ v, SrcM.tfidf_similarity sq
      (SrcM.vecLookup (SrcM.build_tfidf_vectors lg [sn] SrcM.STOP_WORDS) sn) v = 0) ∧
    SrcM.compute_similarity lg sq names sn inorm =
      max (SrcM.levenshtein_similarity sn inorm)
        (SrcM.jaro_winkler_similarity sn inorm) := by
  refine ⟨?_, ?_, SrcM.compute_similarity_eq_max lg sq hlg names sn inorm⟩
  · rw [SrcM.supVec_eq]
    exact SrcM.vecFor_single_zero lg SrcM.STOP_WORDS sn hlg
  · intro v
    apply SrcM.tfidf_zero_left
    rw [SrcM.supVec_eq]
    exact SrcM.sumSq_zero (SrcM.vecFor_single_zero lg SrcM.STOP_WORDS sn hlg)

/-- C9 (witness): the reduction at a concrete log and sqrt model and
concrete strings. -/
theorem claim_C9_witness :
    ((fun _ : ℚ => (0 : ℚ)) 1 = 0) ∧
    ((∀ p ∈ SrcM.vecLookup
        (SrcM.build_tfidf_vectors (fun _ => 0) ["garlic"] SrcM.STOP_WORDS)
        "garlic", p.2 = 0) ∧
      (∀ v, SrcM.tfidf_similarity (fun _ => 0)
        (SrcM.vecLookup
          (SrcM.build_tfidf_vectors (fun _ => 0) ["garlic"] SrcM.STOP_WORDS)
          "garlic") v = 0) ∧
      SrcM.compute_similarity (fun _ => 0) (fun _ => 0) ["onion"] "garlic" "onion" =
        max (SrcM.levenshtein_similarity "garlic" "onion")
          (SrcM.jaro_winkler_similarity "garlic" "onion")) :=
  ⟨rfl, claim_C9_theorem (fun _ => 0) (fun _ => 0) rfl ["onion"] "garlic" "onion"⟩

/-- C10: the blocking index of the pandas Matcher stores str(ingredient_id)
while the normalized-name lookup is keyed by the original id values, so
when every catalog id is an int, every candidate lookup misses and match
returns (None, 0.0) for every query, whatever token_set_ratio and whatever
set-iteration order the runtime uses. -/
theorem claim_C10_theorem (tsr : String → String → ℚ)
    (enumS : Finset String → List String)
    (rows : List (PdM.PyKey × String))
    (hint : ∀ r ∈ rows, ∃ n, r.1 = PdM.PyKey.pint n) (q : String) :
    PdM.matchQuery tsr enumS rows q = (none, 0) := by
  unfold PdM.matchQuery
  split_ifs with h1 h2
  · rfl
  · rfl
  · have hfold : ∀ (l : List String) (b : ℚ × Option String),
        l.foldl
          (fun (b : ℚ × Option String) iid =>
            match PdM.pdGet (PdM.nlookup rows) (PdM.PyKey.pstr iid) with
            | none => b
            | some cn =>
              if cn = "" then b
              else if b.1 < tsr (PdM.normalize q) cn then
                (tsr (PdM.normalize q) cn, some iid)
              else b)
          b = b := by
      intro l
      induction l with
      | nil => intro b; rfl
      | cons iid l ih =>
        intro b
        rw [List.foldl_cons]
        rw [PdM.pdGet_miss rows hint iid]
        exact ih b
    rw [hfold]

/-- C10 (witness): a one-row integer-id catalog and the query equal to its
name still produce (None, 0.0). -/
theorem claim_C10_witness :
    (∀ r ∈ [(PdM.PyKey.pint 1, "Tomato")], ∃ n, r.1 = PdM.PyKey.pint n) ∧
    PdM.matchQuery (fun _ _ => 0) sortEnumStr
      [(PdM.PyKey.pint 1, "Tomato")] "Tomato" = (none, 0) := by
  have hint : ∀ r ∈ [(PdM.PyKey.pint 1, "Tomato")], ∃ n, r.1 = PdM.PyKey.pint n := by
    intro r hr
    rw [List.mem_singleton] at hr
    subst hr
    exact ⟨1, rfl⟩
  exact ⟨hint, claim_C10_theorem (fun _ _ => 0) sortEnumStr _ hint "Tomato"⟩

/-- C2 (counterexample): for the query "xyz unknown" against the one-entry
catalog "Tomato", get_blocking_candidates of src/matcher.py yields the
empty set and MatchingEngine.match returns no entry id at all — there is
no all-entries fallback in that implementation, although the query has a
non-empty normalized form and the catalog is non-empty. -/
theorem claim_C2_counterexample :
    (SrcM.mkSupplierItem "S1" "xyz unknown").normalized_name ≠ "" ∧
    SrcM.get_blocking_candidates (SrcM.mkSupplierItem "S1" "xyz unknown")
      [SrcM.mkIngredient 1 "Tomato"] = [] ∧
    SrcM.matchItem (fun _ => 0) (fun _ => 0) [SrcM.mkIngredient 1 "Tomato"]
      (SrcM.mkSupplierItem "S1" "xyz unknown") = ⟨"S1", none, 0⟩ := by
  refine ⟨by decide, by decide, ?_⟩
  exact SrcM.matchItem_nil _ _ _ _ (by decide)

/-- C2 (amended): the all-entries fallback exists in the pandas Matcher
(_get_candidates never returns the empty set for a non-empty catalog and a
query with a non-empty normalized form); MatchingEngine of src/matcher.py
has no fallback, and when its blocking rule yields no candidate, match
returns the absent id with confidence 0. -/
theorem claim_C2_theorem :
    (∀ (rows : List (PdM.PyKey × String)) (q : String), rows ≠ [] →
      PdM.normalize q ≠ "" →
      PdM.getCandidatesPd rows (PdM.normalize q) ≠ ∅) ∧
    (∀ (lg sq : ℚ → ℚ) (ings : List SrcM.Ingredient) (item : SrcM.SupplierItem),
      SrcM.get_blocking_candidates item ings = [] →
      SrcM.matchItem lg sq ings item = ⟨item.item_id, none, 0⟩) := by
  constructor
  · intro rows q hrows hq
    exact PdM.getCandidatesPd_ne rows (PdM.normalize q) hrows
      (PdM.normalize_tokens_ne hq)
  · intro lg sq ings item h
    exact SrcM.matchItem_nil lg sq ings item h

/-- C2 (witness): the fallback part at a one-row catalog and the query
"zzzz", which shares no token with any entry, and the no-fallback part at
the concrete counterexample input. -/
theorem claim_C2_witness :
    ([((PdM.PyKey.pstr "1"), "Tomato")] ≠ ([] : List (PdM.PyKey × String))) ∧
    PdM.normalize "zzzz" ≠ "" ∧
    PdM.getCandidatesPd [((PdM.PyKey.pstr "1"), "Tomato")]
      (PdM.normalize "zzzz") ≠ ∅ ∧
    SrcM.matchItem (fun _ => 0) (fun _ => 0) [SrcM.mkIngredient 1 "Tomato"]
      (SrcM.mkSupplierItem "S9" "xyz unknown") = ⟨"S9", none, 0⟩ :=
  ⟨by decide, by decide,
    claim_C2_theorem.1 [((PdM.PyKey.pstr "1"), "Tomato")] "zzzz" (by decide) (by decide),
    claim_C2_theorem.2 (fun _ => 0) (fun _ => 0) _ _ (by decide)⟩

/-- C5: the confidence of MatchingEngine.match (for the engine's log with
log 1 = 0) and the score of FuzzyMatcher.match_single always lie in the
closed interval [0, 1], for every catalog, every query string and every
set-iteration order. -/
theorem claim_C5_theorem :
    (∀ (lg sq : ℚ → ℚ), lg 1 = 0 →
      ∀ (ings : List SrcM.Ingredient) (item : SrcM.SupplierItem),
        0 ≤ (SrcM.matchItem lg sq ings item).confidence ∧
        (SrcM.matchItem lg sq ings item).confidence ≤ 1) ∧
    (∀ (enum : Finset ℕ → List ℕ) (ings : List AppM.AIngredient) (q : String),
      0 ≤ (AppM.match_single enum ings q).2 ∧
      (AppM.match_single enum ings q).2 ≤ 1) := by
  constructor
  · intro lg sq hlg ings item
    exact SrcM.matchItem_conf_bounds lg sq hlg ings item
  · intro enum ings q
    exact AppM.match_single_bounds enum ings q

/-- C5 (witness): the bounds at a concrete engine, query and iteration
order. -/
theorem claim_C5_witness :
    ((fun _ : ℚ => (0 : ℚ)) 1 = 0) ∧
    (0 ≤ (SrcM.matchItem (fun _ => 0) (fun _ => 0) [SrcM.mkIngredient 1 "Tomato"]
        (SrcM.mkSupplierItem "S1" "tomato 1kg")).confidence ∧
      (SrcM.matchItem (fun _ => 0) (fun _ => 0) [SrcM.mkIngredient 1 "Tomato"]
        (SrcM.mkSupplierItem "S1" "tomato 1kg")).confidence ≤ 1) ∧
    (0 ≤ (AppM.match_single sortEnum [⟨7, "garlic"⟩] "gralic").2 ∧
      (AppM.match_single sortEnum [⟨7, "garlic"⟩] "gralic").2 ≤ 1) :=
  ⟨rfl, claim_C5_theorem.1 (fun _ => 0) (fun _ => 0) rfl _ _,
    claim_C5_theorem.2 sortEnum _ "gralic"⟩

/-- C8: FuzzyMatcher.match_single returns the sentinel id -1 with score
0.0 for every query that is empty or whitespace-only, and likewise
whenever every blocking candidate scores exactly 0.0 under
combined_similarity, even though candidates exist. -/
theorem claim_C8_theorem :
    (∀ (enum : Finset ℕ → List ℕ) (ings : List AppM.AIngredient) (q : String),
      pyStrip q = "" → AppM.match_single enum ings q = (-1, 0)) ∧
    (∀ (enum : Finset ℕ → List ℕ) (ings : List AppM.AIngredient) (q : String),
      (∀ idx ∈ AppM.get_candidates enum ings q 50,
        AppM.combined_similarity q ((ings.getD idx ⟨0, ""⟩)).name = 0) →
      AppM.match_single enum ings q = (-1, 0)) := by
  constructor
  · intro enum ings q h
    unfold AppM.match_single
    rw [if_pos (Or.inr h)]
  · intro enum ings q hz
    unfold AppM.match_single
    split_ifs with h
    · rfl
    · exact AppM.match_single_fold_zero ings q _ hz

/-- C8 (witness): a whitespace-only query, and the query "99" against the
catalog ["tomato"], whose single fallback candidate scores exactly 0. -/
theorem claim_C8_witness :
    (pyStrip "   " = "" ∧
      AppM.match_single sortEnum [⟨5, "tomato"⟩] "   " = (-1, 0)) ∧
    ((∀ idx ∈ AppM.get_candidates sortEnum [⟨5, "tomato"⟩] "99" 50,
        AppM.combined_similarity "99"
          ((([⟨5, "tomato"⟩] : List AppM.AIngredient).getD idx ⟨0, ""⟩)).name = 0) ∧
      AppM.match_single sortEnum [⟨5, "tomato"⟩] "99" = (-1, 0)) := by
  have htok : AppM.token_set_similarity "99" "tomato" = 0 := by
    unfold AppM.token_set_similarity
    rw [if_neg (by decide), if_neg (by decide), if_pos (by decide)]
    rw [show (AppM.get_tokens "99" ∩ AppM.get_tokens "tomato").card = 0 by decide,
      show (AppM.get_tokens "99" ∪ AppM.get_tokens "tomato").card = 2 by decide]
    norm_num
  have hstr : AppM.string_similarity "99" "tomato" = 0 := by
    unfold AppM.string_similarity
    rw [if_neg (by decide), if_neg (by decide)]
    apply smRatioVal_zero_of_no_common
    · decide
    · decide
  have hcomb : AppM.combined_similarity "99" "tomato" = 0 := by
    unfold AppM.combined_similarity
    rw [htok, hstr]
    norm_num
  have hz : ∀ idx ∈ AppM.get_candidates sortEnum [⟨5, "tomato"⟩] "99" 50,
      AppM.combined_similarity "99"
        ((([⟨5, "tomato"⟩] : List AppM.AIngredient).getD idx ⟨0, ""⟩)).name = 0 := by
    intro idx hidx
    rw [show AppM.get_candidates sortEnum [⟨5, "tomato"⟩] "99" 50 = [0] by decide]
      at hidx
    rw [List.mem_singleton] at hidx
    subst hidx
    exact hcomb
  exact ⟨⟨by decide, claim_C8_theorem.1 sortEnum _ "   " (by decide)⟩,
    ⟨hz, claim_C8_theorem.2 sortEnum _ "99" hz⟩⟩

/-- C1 (counterexample): two catalog entries with identical normalized
names and ids 1 and 2; MatchingEngine.match resolves the exact score tie
to id 2, the HIGHEST id, because the code maximises the key
(score, +ingredient_id) — not to the lowest id as claimed. -/
theorem claim_C1_counterexample :
    (SrcM.mkIngredient 1 "Tomato").normalized_name =
      (SrcM.mkIngredient 2 "Tomato").normalized_name ∧
    (1 : ℤ) < 2 ∧
    (SrcM.matchItem (fun _ => 0) (fun _ => 0)
        [SrcM.mkIngredient 1 "Tomato", SrcM.mkIngredient 2 "Tomato"]
        (SrcM.mkSupplierItem "S1" "tomato")).ingredient_id = some 2 := by
  refine ⟨by decide, by norm_num, ?_⟩
  obtain ⟨best, hbmem, heq, hmax⟩ := SrcM.matchItem_best_spec (fun _ => 0) (fun _ => 0)
    [SrcM.mkIngredient 1 "Tomato", SrcM.mkIngredient 2 "Tomato"]
    (SrcM.mkSupplierItem "S1" "tomato") (by decide)
  rw [heq]
  have hcands : SrcM.get_blocking_candidates (SrcM.mkSupplierItem "S1" "tomato")
      [SrcM.mkIngredient 1 "Tomato", SrcM.mkIngredient 2 "Tomato"] =
      [SrcM.mkIngredient 1 "Tomato", SrcM.mkIngredient 2 "Tomato"] := by decide
  rw [hcands] at hbmem hmax
  have hnorm : (SrcM.mkIngredient 1 "Tomato").normalized_name =
      (SrcM.mkIngredient 2 "Tomato").normalized_name := by decide
  rcases List.mem_cons.mp hbmem with hb1 | hb2
  · exfalso
    have h2 := hmax (SrcM.mkIngredient 2 "Tomato")
      (List.mem_cons.mpr (Or.inr (List.mem_singleton_self _)))
    rw [hb1] at h2
    rcases h2 with hlt | ⟨_, hle⟩
    · rw [← hnorm] at hlt
      exact lt_irrefl _ hlt
    · exact absurd hle (by decide)
  · rw [List.mem_singleton] at hb2
    rw [hb2]
    rfl

/-- C1 (amended): MatchingEngine.match is deterministic: it returns the
candidate whose (combined score, ingredient id) pair is lexicographically
maximal over the blocking candidates — so the highest score wins and, on
an exact score tie, the HIGHEST ingredient id is returned, for every
catalog, query and log/sqrt model. -/
theorem claim_C1_theorem (lg sq : ℚ → ℚ) (ings : List SrcM.Ingredient)
    (item : SrcM.SupplierItem)
    (hc : SrcM.get_blocking_candidates item ings ≠ []) :
    ∃ best ∈ SrcM.get_blocking_candidates item ings,
      SrcM.matchItem lg sq ings item =
        ⟨item.item_id, some best.ingredient_id,
          round4 (SrcM.compute_similarity lg sq
            (ings.map (fun i => i.normalized_name))
            item.normalized_name best.normalized_name)⟩ ∧
      ∀ c ∈ SrcM.get_blocking_candidates item ings,
        lexLeQZ
          (SrcM.compute_similarity lg sq (ings.map (fun i => i.normalized_name))
            item.normalized_name c.normalized_name, c.ingredient_id)
          (SrcM.compute_similarity lg sq (ings.map (fun i => i.normalized_name))
            item.normalized_name best.normalized_name, best.ingredient_id) :=
  SrcM.matchItem_best_spec lg sq ings item hc

/-- C1 (witness): the amended selector specification at the concrete tied
catalog of the counterexample. -/
theorem claim_C1_witness :
    SrcM.get_blocking_candidates (SrcM.mkSupplierItem "S1" "tomato")
      [SrcM.mkIngredient 1 "Tomato", SrcM.mkIngredient 2 "Tomato"] ≠ [] ∧
    (∃ best ∈ SrcM.get_blocking_candidates (SrcM.mkSupplierItem "S1" "tomato")
        [SrcM.mkIngredient 1 "Tomato", SrcM.mkIngredient 2 "Tomato"],
      SrcM.matchItem (fun _ => 0) (fun _ => 0)
          [SrcM.mkIngredient 1 "Tomato", SrcM.mkIngredient 2 "Tomato"]
          (SrcM.mkSupplierItem "S1" "tomato") =
        ⟨(SrcM.mkSupplierItem "S1" "tomato").item_id, some best.ingredient_id,
          round4 (SrcM.compute_similarity (fun _ => 0) (fun _ => 0)
            (([SrcM.mkIngredient 1 "Tomato",
              SrcM.mkIngredient 2 "Tomato"]).map (fun i => i.normalized_name))
            (SrcM.mkSupplierItem "S1" "tomato").normalized_name
            best.normalized_name)⟩ ∧
      ∀ c ∈ SrcM.get_blocking_candidates (SrcM.mkSupplierItem "S1" "tomato")
          [SrcM.mkIngredient 1 "Tomato", SrcM.mkIngredient 2 "Tomato"],
        lexLeQZ
          (SrcM.compute_similarity (fun _ => 0) (fun _ => 0)
            (([SrcM.mkIngredient 1 "Tomato",
              SrcM.mkIngredient 2 "Tomato"]).map (fun i => i.normalized_name))
            (SrcM.mkSupplierItem "S1" "tomato").normalized_name
            c.normalized_name, c.ingredient_id)
          (SrcM.compute_similarity (fun _ => 0) (fun _ => 0)
            (([SrcM.mkIngredient 1 "Tomato",
              SrcM.mkIngredient 2 "Tomato"]).map (fun i => i.normalized_name))
            (SrcM.mkSupplierItem "S1" "tomato").normalized_name
            best.normalized_name, best.ingredient_id)) :=
  ⟨by decide, claim_C1_theorem (fun _ => 0) (fun _ => 0) _ _ (by decide)⟩

/-- C4 (counterexample): the catalog entry "1kg" has a non-empty raw name
but an empty normalized name, so querying its canonical name verbatim
yields no blocking candidate and match returns no id with confidence 0
instead of the entry's id with confidence 1. -/
theorem claim_C4_counterexample :
    (SrcM.mkIngredient 1 "1kg").name ≠ "" ∧
    SrcM.matchItem (fun _ => 0) (fun _ => 0) [SrcM.mkIngredient 1 "1kg"]
      (SrcM.mkSupplierItem "S1" (SrcM.mkIngredient 1 "1kg").name) =
      ⟨"S1", none, 0⟩ := by
  refine ⟨by decide, SrcM.matchItem_nil _ _ _ _ (by decide)⟩

/-- C4 (amended): for every catalog entry whose name normalizes to a
non-empty string and whose normalized name determines its id uniquely in
the catalog, querying the entry's canonical name verbatim returns that
entry's id with confidence exactly 1. -/
theorem claim_C4_theorem (lg sq : ℚ → ℚ) (hlg : lg 1 = 0)
    (ings : List SrcM.Ingredient) (e : SrcM.Ingredient) (iid : String)
    (hmem : e ∈ ings)
    (hwf1 : e.normalized_name = (SrcM.preprocess_text e.name).1)
    (hwf2 : e.tokens = (SrcM.preprocess_text e.name).2)
    (hne : e.normalized_name ≠ "")
    (huni : ∀ e' ∈ ings, e'.normalized_name = e.normalized_name →
      e'.ingredient_id = e.ingredient_id) :
    SrcM.matchItem lg sq ings (SrcM.mkSupplierItem iid e.name) =
      ⟨iid, some e.ingredient_id, 1⟩ := by
  have hin : (SrcM.mkSupplierItem iid e.name).normalized_name =
      e.normalized_name := hwf1.symm
  have hit : (SrcM.mkSupplierItem iid e.name).tokens = e.tokens := hwf2.symm
  have hne' : (SrcM.preprocess_text e.name).1 ≠ "" := by
    rw [← hwf1]; exact hne
  have htok_ne : e.tokens ≠ ∅ := by
    rw [hwf2]; exact SrcM.preprocess_tokens_ne e.name hne'
  have hecand : e ∈ SrcM.get_blocking_candidates (SrcM.mkSupplierItem iid e.name) ings := by
    rw [SrcM.mem_get_blocking_candidates]
    refine ⟨hmem, ?_⟩
    rw [hit, Finset.inter_self]
    have hpos : 0 < e.tokens.card :=
      Finset.card_pos.mpr (Finset.nonempty_iff_ne_empty.mpr htok_ne)
    by_cases h1 : e.tokens.card = 1
    · rw [if_pos h1, h1]
    · rw [if_neg h1]; omega
  have hcne : SrcM.get_blocking_candidates (SrcM.mkSupplierItem iid e.name) ings ≠ [] := by
    intro h
    rw [h] at hecand
    exact absurd hecand (List.not_mem_nil e)
  obtain ⟨best, hbmem, heq, hmax⟩ :=
    SrcM.matchItem_best_spec lg sq ings (SrcM.mkSupplierItem iid e.name) hcne
  have hbest_le : SrcM.compute_similarity lg sq (ings.map (fun i => i.normalized_name))
      (SrcM.mkSupplierItem iid e.name).normalized_name best.normalized_name ≤ 1 :=
    SrcM.compute_similarity_le_one lg sq hlg _ _ _
  have hsim_e : SrcM.compute_similarity lg sq (ings.map (fun i => i.normalized_name))
      (SrcM.mkSupplierItem iid e.name).normalized_name e.normalized_name = 1 := by
    rw [hin]
    exact SrcM.compute_similarity_self lg sq hlg _ _
  have h2 := hmax e hecand
  rw [hsim_e] at h2
  have hsb : SrcM.compute_similarity lg sq (ings.map (fun i => i.normalized_name))
      (SrcM.mkSupplierItem iid e.name).normalized_name best.normalized_name = 1 := by
    rcases h2 with hlt | ⟨heq1, _⟩
    · exact absurd hlt (not_lt.mpr hbest_le)
    · exact heq1.symm
  have hnb : (SrcM.mkSupplierItem iid e.name).normalized_name =
      best.normalized_name :=
    SrcM.compute_similarity_eq_one_imp lg sq hlg _ _ _ (by rw [hin]; exact hne) hsb
  have hbid : best.ingredient_id = e.ingredient_id := by
    apply huni best
    · exact ((SrcM.mem_get_blocking_candidates _ ings best).mp hbmem).1
    · rw [← hnb, hin]
  rw [heq, hbid, hsb, round4_one]
  rfl

/-- C4 (witness): the amended statement at the two-entry catalog Tomato /
Onion, querying the raw name "Tomato" verbatim. -/
theorem claim_C4_witness :
    ((fun _ : ℚ => (0 : ℚ)) 1 = 0) ∧
    SrcM.mkIngredient 1 "Tomato" ∈
      [SrcM.mkIngredient 1 "Tomato", SrcM.mkIngredient 2 "Onion"] ∧
    (SrcM.mkIngredient 1 "Tomato").normalized_name ≠ "" ∧
    SrcM.matchItem (fun _ => 0) (fun _ => 0)
      [SrcM.mkIngredient 1 "Tomato", SrcM.mkIngredient 2 "Onion"]
      (SrcM.mkSupplierItem "X" (SrcM.mkIngredient 1 "Tomato").name) =
      ⟨"X", some (SrcM.mkIngredient 1 "Tomato").ingredient_id, 1⟩ :=
  ⟨rfl, by decide, by decide,
    claim_C4_theorem (fun _ => 0) (fun _ => 0) rfl
      [SrcM.mkIngredient 1 "Tomato", SrcM.mkIngredient 2 "Onion"]
      (SrcM.mkIngredient 1 "Tomato") "X" (by decide) (by decide) (by decide)
      (by decide) (by decide)⟩
